import Mathlib

/-!
Verification of the change-set ACL reconciliation and union-merge engine of
`tcbuilder/cli/union.py` (torizoncore-builder).

The Python code walks change-set directory trees, rewrites `.tcattr` ACL
sidecar files (dropping symlink stanzas), restores recorded ACLs via
`setfacl --restore`, applies a default ownership/mode policy to unrecorded
paths, and stages caller-supplied change-set directories under `/tmp` before
handing them to the versioned store.

We embed the code shallowly: the filesystem is a list of entries keyed by the
literal path strings the Python code manipulates; `os`-level primitives
(`chown`, `chmod`, `islink`, `isdir`, `walk`, `mkdir`, `cp -r`) are modelled as
pure functions on that state; every reconciliation function of `union.py` is
translated line by line.  Executions also produce an event trace so that
ordering claims can be settled.
-/

namespace Tcb

/-! ## Python string primitives

The Python code relies on `str.replace`, `str.strip`, substring containment
(`in`), `str.startswith` and `os.path.join`.  We implement them on `String`
via the underlying character list so that all proofs reduce in the kernel.
-/

/-- `pat.isPrefixOf`-guided scan implementing Python `str.replace` semantics:
replace non-overlapping occurrences of `pat` left to right.  `fuel` bounds the
scan; callers pass the string length, which always suffices. -/
def replChars (pat rep : List Char) : Nat → List Char → List Char
  | 0, s => s
  | _, [] => []
  | fuel + 1, c :: rest =>
    if pat.isPrefixOf (c :: rest) then rep ++ replChars pat rep fuel ((c :: rest).drop pat.length)
    else c :: replChars pat rep fuel rest

/-- Python `s.replace(pat, rep)` (all occurrences, left to right). -/
def pyReplace (s pat rep : String) : String :=
  ⟨replChars pat.data rep.data s.data.length s.data⟩

/-- Python `s.strip()`: drop whitespace from both ends. -/
def pyStrip (s : String) : String :=
  ⟨((s.data.dropWhile Char.isWhitespace).reverse.dropWhile Char.isWhitespace).reverse⟩

/-- Substring containment on character lists (Python `pat in s` for nonempty `pat`). -/
def hasSubstr (pat : List Char) : List Char → Bool
  | [] => pat == []
  | c :: rest => pat.isPrefixOf (c :: rest) || hasSubstr pat rest

/-- Python `'# file: ' in line`. -/
def hasMarker (line : String) : Bool :=
  hasSubstr "# file: ".data line.data

/-- Python `s.startswith(pat)`. -/
def pyStartsWith (s pat : String) : Bool :=
  pat.data.isPrefixOf s.data

/-- Whether a path string is absolute (begins with `/`). -/
def isAbsPath (s : String) : Bool :=
  match s.data with
  | c :: _ => c = '/'
  | [] => false

/-- `os.path.join(a, b)` for two components: an absolute second component
discards the first; otherwise the components are joined with `/`.  (The
Python code never joins onto a base ending in `/`, so the joining-slash
special case is not needed.) -/
def pjoin (a b : String) : String :=
  if isAbsPath b then b else a ++ "/" ++ b

/-- `os.path.abspath(p)` relative to the process working directory `cwd`.
Path normalization (collapsing `.`/`..`) is elided: the code under study
only ever passes already-normal paths. -/
def abspath (cwd p : String) : String :=
  if isAbsPath p then p else pjoin cwd p

/-! ## Filesystem model -/

/-- The kind of a filesystem object.  `os.path.isdir` follows symlinks, so a
symlink is tagged with whether its target is a directory. -/
inductive FKind where
  | dir
  | file
  | linkToDir
  | linkToOther
  deriving DecidableEq, Repr

/-- Whether `os.path.islink` reports true for this kind. -/
def FKind.isLink : FKind → Bool
  | .linkToDir => true
  | .linkToOther => true
  | _ => false

/-- Whether `os.path.isdir` (which follows symlinks) reports true for this kind. -/
def FKind.isDirLike : FKind → Bool
  | .dir => true
  | .linkToDir => true
  | _ => false

/-- One filesystem object: its absolute-or-relative path exactly as the
Python code addresses it, its kind, permission mode bits, owner, an optional
extended-ACL description (the opaque blob `setfacl --restore` installs), and
its text content as a list of newline-terminated lines (only meaningful for
sidecar files). -/
structure FEntry where
  path : String
  kind : FKind
  mode : Nat
  uid : Nat
  gid : Nat
  acl : Option (List String)
  content : List String
  deriving DecidableEq, Repr

/-- A filesystem state: the list of existing objects. -/
abbrev FS := List FEntry

/-- The structural shape of the filesystem (paths and kinds); directory
walking and the `islink`/`isdir` tests depend only on this projection. -/
abbrev Shape := List (String × FKind)

def shapeOf (fs : FS) : Shape :=
  fs.map (fun e => (e.path, e.kind))

/-- An entry's metadata: everything except its content. -/
def projM (e : FEntry) : String × FKind × Nat × Nat × Nat × Option (List String) :=
  (e.path, e.kind, e.mode, e.uid, e.gid, e.acl)

/-- An entry with its ACL field masked (the part untouched by an ACL restore). -/
def projNA (e : FEntry) : String × FKind × Nat × Nat × Nat × List String :=
  (e.path, e.kind, e.mode, e.uid, e.gid, e.content)

/-- An entry's core attributes (untouched by both sidecar rewriting and ACL
restoration). -/
def projCore (e : FEntry) : String × FKind × Nat × Nat × Nat :=
  (e.path, e.kind, e.mode, e.uid, e.gid)

/-- The metadata of the filesystem: everything except file contents.  The
idempotence claim is about this projection. -/
def metaOf (fs : FS) : List (String × FKind × Nat × Nat × Nat × Option (List String)) :=
  fs.map projM

def findEntry (fs : FS) (p : String) : Option FEntry :=
  fs.find? (fun e => e.path == p)

/-- Apply `f` to every entry at path `p` (all mutating primitives factor
through this). -/
def updEntry (fs : FS) (p : String) (f : FEntry → FEntry) : FS :=
  fs.map (fun e => if e.path == p then f e else e)

def kindAtS (s : Shape) (p : String) : Option FKind :=
  (s.find? (fun e => e.1 == p)).map Prod.snd

/-- `os.path.islink(p)` — `false` for a missing path. -/
def islinkS (s : Shape) (p : String) : Bool :=
  ((kindAtS s p).map FKind.isLink).getD false

/-- `os.path.isdir(p)` (follows symlinks) — `false` for a missing path. -/
def isdirS (s : Shape) (p : String) : Bool :=
  ((kindAtS s p).map FKind.isDirLike).getD false

def islinkFS (fs : FS) (p : String) : Bool := islinkS (shapeOf fs) p

def isdirFS (fs : FS) (p : String) : Bool := isdirS (shapeOf fs) p

/-- `os.path.exists`. -/
def existsFS (fs : FS) (p : String) : Bool :=
  (findEntry fs p).isSome

/-- `os.stat(p, follow_symlinks=False).st_mode` permission bits. -/
def statModeNF (fs : FS) (p : String) : Nat :=
  ((findEntry fs p).map FEntry.mode).getD 0

/-- Text content of the file at `p` as a list of lines (empty for missing). -/
def contentOf (fs : FS) (p : String) : List String :=
  ((findEntry fs p).map FEntry.content).getD []

def chownFS (fs : FS) (p : String) (u g : Nat) : FS :=
  updEntry fs p (fun e => { e with uid := u, gid := g })

def chmodFS (fs : FS) (p : String) (m : Nat) : FS :=
  updEntry fs p (fun e => { e with mode := m })

def setAclFS (fs : FS) (p : String) (a : List String) : FS :=
  updEntry fs p (fun e => { e with acl := some a })

def setContentFS (fs : FS) (p : String) (c : List String) : FS :=
  updEntry fs p (fun e => { e with content := c })

/-! ## `os.walk`

`os.walk(top)` (topdown, `followlinks=False`) yields `(base_dir, dirnames,
filenames)` per visited directory: `dirnames` are the children for which
`os.path.isdir` holds (this follows symlinks, so symlinks to directories are
listed there), `filenames` are the rest, and recursion descends only into
children that are real directories (not symlinks).  Listing order is the
order of the entries in the state.  The walk depends only on the shape. -/

/-- Names of the direct children of directory `p`: entries whose path is
`p ++ "/" ++ name` with `name` nonempty and slash-free. -/
def childNamesS (s : Shape) (p : String) : List String :=
  s.filterMap (fun e =>
    if (p ++ "/").data.isPrefixOf e.1.data then
      let rest : List Char := e.1.data.drop (p ++ "/").data.length
      if rest ≠ [] ∧ ¬ rest.contains '/' then some ⟨rest⟩ else none
    else none)

/-- One `os.walk` triple: the visited directory, its `dirnames`, its `filenames`. -/
abbrev WalkTriple := String × List String × List String

/-- Fuelled walk; the fuel is the number of entries plus one, which bounds the
directory depth of any well-formed state. -/
def walkAux (s : Shape) : Nat → String → List WalkTriple
  | 0, _ => []
  | fuel + 1, p =>
    let names := childNamesS s p
    let dirnames := names.filter (fun n => isdirS s (pjoin p n))
    let filenames := names.filter (fun n => ¬ isdirS s (pjoin p n))
    (p, dirnames, filenames) ::
      (dirnames.filter (fun n => kindAtS s (pjoin p n) == some .dir)).flatMap
        (fun n => walkAux s fuel (pjoin p n))

/-- `os.walk(top)` over the shape of the filesystem. -/
def walkS (s : Shape) (top : String) : List WalkTriple :=
  walkAux s (s.length + 1) top

/-! ## Events

Executions record the externally visible operations so that ordering claims
(which operation happened before which) can be stated. -/

inductive Ev where
  /-- `os.chown(path, uid, gid, follow_symlinks=False)` -/
  | chown (path : String) (uid gid : Nat)
  /-- `os.chmod(path, mode)` -/
  | chmod (path : String) (mode : Nat)
  /-- `setfacl --restore=<baseDir>/.tcattr` run with cwd `baseDir` -/
  | restore (baseDir : String)
  /-- rewrite of `<baseDir>/.tcattr` via `.tcattr.tmp` + `os.rename` -/
  | rewrite (baseDir : String)
  /-- `os.mkdir`/`os.makedirs` -/
  | mkdirE (path : String)
  /-- `cp -r <src>/. <dst>` -/
  | copyE (src dst : String)
  deriving DecidableEq, Repr

/-! ## `union.py` reconciliation functions -/

/-- `set_file_mode(filename, mode)`: set ownership to root (link-aware), then
set the mode unless the path is a symbolic link. -/
def set_file_mode (fs : FS) (filename : String) (mode : Nat) : FS × List Ev :=
  let root_uid := 0
  let root_gid := 0
  let fs1 := chownFS fs filename root_uid root_gid
  if ¬ islinkFS fs1 filename then
    (chmodFS fs1 filename mode, [.chown filename root_uid root_gid, .chmod filename mode])
  else
    (fs1, [.chown filename root_uid root_gid])

/-- `apply_default_acl(files)`: classify each file on disk and apply the
default owner/mode (0o660 plain file, 0o755 directory, 0o770 executable;
symlinks get ownership only via `set_file_mode`). -/
def apply_default_acl (fs : FS) : List String → FS × List Ev
  | [] => (fs, [])
  | filename :: files =>
    let default_file_mode := 0o660
    let default_dir_mode := 0o755
    let default_exec_mode := 0o770
    let mode :=
      if isdirFS fs filename then default_dir_mode
      else if statModeNF fs filename &&& 0o111 ≠ 0 then default_exec_mode
      else default_file_mode
    let r := set_file_mode fs filename mode
    let rest := apply_default_acl r.1 files
    (rest.1, r.2 ++ rest.2)

/-- Splitting a line list at the empty lines: the Python code joins the
sidecar lines replacing each blank line by a separator token and then splits
on that token, which on the line level is exactly splitting at `""`
(like `List.splitOn ""`, defined recursively for easy induction). -/
def splitSep : List String → List (List String)
  | [] => [[]]
  | x :: xs =>
    match splitSep xs with
    | [] => [[]]
    | c :: cs => if x = "" then [] :: c :: cs else (x :: c) :: cs

/-- The filename extracted from a sidecar stanza:
`file_attr.split('\n')[0].replace('# file: ', '')`. -/
def stanzaFilename (stanza : List String) : String :=
  pyReplace (stanza.headD "") "# file: " ""

/-- `remove_links_from_tcattr(base_dir)`: split the sidecar `.tcattr` at
`base_dir` into blank-line-separated stanzas, drop every stanza whose target
is a symbolic link, and rewrite the file with each kept stanza followed by a
blank line. -/
def remove_links_from_tcattr (fs : FS) (base_dir : String) : FS × List Ev :=
  let tcattr_file := pjoin base_dir ".tcattr"
  let stanzas := splitSep (contentOf fs tcattr_file)
  let kept := stanzas.filter (fun s => ¬ islinkFS fs (pjoin base_dir (stanzaFilename s)))
  let newContent := kept.flatMap (fun s => s ++ [""])
  (setContentFS fs tcattr_file newContent, [.rewrite base_dir])

/-- The record-collection comprehension in `set_acl_attributes`:
`[(base_dir, line.strip().replace('# file: ', '')) for line in fd_tcattr
  if '# file: ' in line]`. -/
def extract_tcattr_records (base_dir : String) (content : List String) :
    List (String × String) :=
  (content.filter (fun line => hasMarker line)).map
    (fun line => (base_dir, pyReplace (pyStrip line) "# file: " ""))

/-- One-by-one installation of sidecar stanzas (helper for `restoreAclFile`). -/
def restoreStanzas (base : String) (fs : FS) : List (List String) → FS
  | [] => fs
  | stanza :: rest =>
    restoreStanzas base
      (if pyStartsWith (stanza.headD "") "# file: " then
        setAclFS fs (pjoin base (pyReplace (stanza.headD "") "# file: " "")) stanza.tail
      else fs)
      rest

/-- The state effect of `setfacl --restore=<base>/.tcattr` (external tool,
modelled from its documented behavior): for each blank-line-separated stanza
whose first line is a `# file: ` marker, install the remaining lines as the
ACL description of the named file (relative to `base`). -/
def restoreAclFile (fs : FS) (base : String) : FS :=
  restoreStanzas base fs (splitSep (contentOf fs (pjoin base ".tcattr")))

/-- First-occurrence deduplication (the realization of Python's set
comprehension `{tcattr[0] for tcattr in files}`, whose iteration order is
unspecified). -/
def firstDedup : List String → List String
  | [] => []
  | x :: xs => x :: (firstDedup xs).filter (fun y => y != x)

/-- `apply_tcattr_acl(files)`: run `setfacl --restore` once per distinct
sidecar base directory appearing in the record list.  (Python iterates a set
comprehension, whose order is unspecified; we realize it as first-occurrence
order.) -/
def apply_tcattr_acl (fs : FS) (files : List (String × String)) : FS × List Ev :=
  go fs (firstDedup (files.map Prod.fst))
where
  go (fs : FS) : List String → FS × List Ev
    | [] => (fs, [])
    | b :: bs =>
      let fs1 := restoreAclFile fs b
      let rest := go fs1 bs
      (rest.1, .restore b :: rest.2)

/-- The first `os.walk` loop of `set_acl_attributes`: for each directory
whose `filenames` contain `.tcattr`, normalize the sidecar and then re-read
it, *reassigning* (not extending) the record list — so only the last-walked
sidecar's records survive, exactly as in the source. -/
def sidecar_pass (fs : FS) (recs : List (String × String)) :
    List WalkTriple → FS × List Ev × List (String × String)
  | [] => (fs, [], recs)
  | t :: ts =>
    if ".tcattr" ∈ t.2.2 then
      let r := remove_links_from_tcattr fs t.1
      let recs' := extract_tcattr_records t.1 (contentOf r.1 (pjoin t.1 ".tcattr"))
      let rest := sidecar_pass r.1 recs' ts
      (rest.1, r.2 ++ rest.2.1, rest.2.2)
    else
      sidecar_pass fs recs ts

/-- The second `os.walk` loop of `set_acl_attributes`: every walked name that
is not `.tcattr` and whose joined path is not among the record paths goes to
the default-ACL list. -/
def default_paths (w : List WalkTriple) (records : List (String × String)) :
    List String :=
  w.flatMap (fun t =>
    ((t.2.1 ++ t.2.2).filter (fun filename =>
        filename != ".tcattr" &&
          !((records.map (fun f => pjoin f.1 f.2)).contains (pjoin t.1 filename)))).map
      (fun filename => pjoin t.1 filename))

/-- `set_acl_attributes(change_dir)`: normalize every sidecar below
`change_dir` collecting (only the last sidecar's) explicit records, partition
the walked paths, then restore explicit ACLs and apply defaults. -/
def set_acl_attributes (fs : FS) (change_dir : String) : FS × List Ev :=
  let w1 := walkS (shapeOf fs) change_dir
  let p1 := sidecar_pass fs [] w1
  let files_to_apply_tcattr_acl := p1.2.2
  let w2 := walkS (shapeOf p1.1) change_dir
  let files_to_apply_default_acl := default_paths w2 files_to_apply_tcattr_acl
  let r3 := apply_tcattr_acl p1.1 files_to_apply_tcattr_acl
  let r4 := apply_default_acl r3.1 files_to_apply_default_acl
  (r4.1, p1.2.1 ++ r3.2 ++ r4.2)

/-- The explicit record list computed by a run of `set_acl_attributes` on
`fs` (the value of `files_to_apply_tcattr_acl` after the first loop). -/
def reconcileRecords (fs : FS) (change_dir : String) : List (String × String) :=
  (sidecar_pass fs [] (walkS (shapeOf fs) change_dir)).2.2

/-- The default-policy list computed by a run of `set_acl_attributes` on `fs`
(the value of `files_to_apply_default_acl` after the second loop). -/
def reconcileDefaultPaths (fs : FS) (change_dir : String) : List String :=
  let p1 := sidecar_pass fs [] (walkS (shapeOf fs) change_dir)
  default_paths (walkS (shapeOf p1.1) change_dir) p1.2.2

/-- All paths enumerated by walking `change_dir`: each walked name joined to
its base directory. -/
def walkedPathsOf (fs : FS) (change_dir : String) : List String :=
  (walkS (shapeOf fs) change_dir).flatMap (fun t => (t.2.1 ++ t.2.2).map (pjoin t.1))

/-- The state after the sidecar-normalization loop of `set_acl_attributes`. -/
def stage1 (fs : FS) (change_dir : String) : FS :=
  (sidecar_pass fs [] (walkS (shapeOf fs) change_dir)).1

/-- The state after the explicit ACL-restore phase of `set_acl_attributes`. -/
def stage2 (fs : FS) (change_dir : String) : FS :=
  (apply_tcattr_acl (stage1 fs change_dir) (reconcileRecords fs change_dir)).1

/-- The state after the default-policy phase — the final state of
`set_acl_attributes`. -/
def stage3 (fs : FS) (change_dir : String) : FS :=
  (apply_default_acl (stage2 fs change_dir) (reconcileDefaultPaths fs change_dir)).1

/-- The on-disk object an event writes to (`copyE` writes its destination;
`restore`/`rewrite` write under their base directory). -/
def Ev.mutTarget : Ev → Option String
  | .chown p _ _ => some p
  | .chmod p _ => some p
  | .restore b => some b
  | .rewrite b => some b
  | .mkdirE p => some p
  | .copyE _ d => some d

/-! ## Union-level staging (`check_and_append_dirs`, `union`) -/

/-- The errors the union path can raise. -/
inductive UErr where
  /-- `tcbuilder.errors.PathNotExistError` -/
  | pathNotExist (msg : String)
  /-- `FileExistsError` from `os.mkdir` / `os.makedirs` -/
  | fileExists (path : String)
  deriving DecidableEq, Repr

/-- A fresh directory entry as created by `mkdir` (its metadata is never
inspected by the code under study). -/
def newDirEntry (p : String) : FEntry :=
  { path := p, kind := .dir, mode := 0o755, uid := 0, gid := 0, acl := none, content := [] }

/-- `os.mkdir(p)`: fails with `FileExistsError` when `p` exists. -/
def mkdirFS (fs : FS) (p : String) : Except UErr FS :=
  if existsFS fs p then .error (.fileExists p) else .ok (fs ++ [newDirEntry p])

/-- `os.makedirs(p)` (default `exist_ok=False`): fails when the leaf exists.
Creation of missing intermediate directories is elided — the code under study
never inspects them. -/
def makedirsFS (fs : FS) (p : String) : Except UErr FS :=
  if existsFS fs p then .error (.fileExists p) else .ok (fs ++ [newDirEntry p])

/-- The state effect of ``cp -r <src>/. <dst>``: every entry strictly below
`src` is duplicated below `dst` (contents of `src` copied into the existing
`dst`). -/
def cpDot (fs : FS) (src dst : String) : FS :=
  fs ++ fs.filterMap (fun e =>
    if (src ++ "/").data.isPrefixOf e.path.data then
      some { e with path := dst ++ ⟨e.path.data.drop src.data.length⟩ }
    else none)

/-- `check_and_append_dirs(changes_dirs, new_changes_dirs, temp_dir)`:
for each requested directory, check existence (raising `PathNotExistError`
otherwise), create the staging target `f"{temp_dir}/{changes_dir}"`
(an f-string concatenation), bulk-copy into it, run `set_acl_attributes` on
`os.path.join(temp_dir, changes_dir)` and append its absolute path.
The trace collected so far is returned even when an error is raised. -/
def check_and_append_dirs (fs : FS) (cwd : String) (changes_dirs : List String)
    (temp_dir : String) :
    List String → List Ev × Except UErr (FS × List String)
  | [] => ([], .ok (fs, changes_dirs))
  | changes_dir :: rest =>
    if ¬ existsFS fs changes_dir then
      ([], .error (.pathNotExist
        ("Changes directory \x22" ++ changes_dir ++ "\x22 does not exist")))
    else
      match makedirsFS fs (temp_dir ++ "/" ++ changes_dir) with
      | .error e => ([], .error e)
      | .ok fs1 =>
        let fs2 := cpDot fs1 changes_dir (temp_dir ++ "/" ++ changes_dir)
        let temp_change_dir := pjoin temp_dir changes_dir
        let r := set_acl_attributes fs2 temp_change_dir
        let rec' := check_and_append_dirs r.1 cwd
          (changes_dirs ++ [abspath cwd temp_change_dir]) temp_dir rest
        ([.mkdirE (temp_dir ++ "/" ++ changes_dir),
          .copyE changes_dir (temp_dir ++ "/" ++ changes_dir)] ++ r.2 ++ rec'.1,
         rec'.2)

/-- Python truthiness of an optional list (`if extra_changes_dirs:`):
`None` and the empty list are falsy. -/
def isTruthyList : Option (List String) → Bool
  | none => false
  | some [] => false
  | some (_ :: _) => true

/-- The automatic-mode loop of `union`: include whichever conventional
subdirectories exist under the storage root, reconciling only `changes`. -/
def autoChangesDirs (fs : FS) (storage_dir : String) :
    List String → FS × List String × List Ev
  | [] => (fs, [], [])
  | subdir :: subdirs =>
    let changed_dir := pjoin storage_dir subdir
    if isdirFS fs changed_dir then
      if subdir == "changes" then
        let r := set_acl_attributes fs changed_dir
        let rest := autoChangesDirs r.1 storage_dir subdirs
        (rest.1, changed_dir :: rest.2.1, r.2 ++ rest.2.2)
      else
        let rest := autoChangesDirs fs storage_dir subdirs
        (rest.1, changed_dir :: rest.2.1, rest.2.2)
    else
      autoChangesDirs fs storage_dir subdirs

/-- `union(changes_dirs, extra_changes_dirs, storage_dir, ...)` up to the
final external `union_changes` store call: validates the storage directory,
assembles the list of (possibly staged) change-set directories and returns it
— the directories handed to the versioned store — together with the event
trace (returned even when an error is raised). -/
def union_cmd (fs : FS) (cwd : String) (changes_dirs : Option (List String))
    (extra_changes_dirs : Option (List String)) (storage_dir : String) :
    List Ev × Except UErr (FS × List String) :=
  let storage_dir' := abspath cwd storage_dir
  if ¬ existsFS fs storage_dir' then
    ([], .error (.pathNotExist
      ("Storage directory \x22" ++ storage_dir' ++ "\x22 does not exist.")))
  else
    let step1 : List Ev × Except UErr (FS × List String) :=
      match changes_dirs with
      | none =>
        let r := autoChangesDirs fs storage_dir' ["changes", "splash", "dt", "kernel"]
        (r.2.2, .ok (r.1, r.2.1))
      | some ds =>
        let temp_dir := pjoin "/tmp" "changes_dirs"
        match mkdirFS fs temp_dir with
        | .error e => ([], .error e)
        | .ok fs1 =>
          let r := check_and_append_dirs fs1 cwd [] temp_dir ds
          (.mkdirE temp_dir :: r.1, r.2)
    match step1 with
    | (evs, .error e) => (evs, .error e)
    | (evs, .ok (fs2, changes_dirs')) =>
      if isTruthyList extra_changes_dirs then
        let temp_dir_extra := pjoin "/tmp" "extra_changes_dirs"
        match mkdirFS fs2 temp_dir_extra with
        | .error e => (evs, .error e)
        | .ok fs3 =>
          let r := check_and_append_dirs fs3 cwd changes_dirs' temp_dir_extra
            (extra_changes_dirs.getD [])
          (evs ++ [.mkdirE temp_dir_extra] ++ r.1, r.2)
      else
        (evs, .ok (fs2, changes_dirs'))

/-- The per-entry outcome of the default policy (`apply_default_acl` followed
by `set_file_mode`): root ownership always; the table mode for everything
that is not a symbolic link. -/
def defaultTarget (e : FEntry) : FEntry :=
  let m : Nat :=
    if e.kind.isDirLike then 0o755
    else if e.mode &&& 0o111 ≠ 0 then 0o770 else 0o660
  if e.kind.isLink then { e with uid := 0, gid := 0 }
  else { e with uid := 0, gid := 0, mode := m }

/-- Well-formedness of sidecar text, as produced by a `setfacl`-style dump:
the `# file: ` marker appears only on the first line of a stanza, and marker
lines carry no surrounding whitespace.  (Needed to relate the three slightly
different ways the code re-parses the same file: `remove_links_from_tcattr`
takes the raw first line, the record comprehension strips every marker line,
and the restore call matches on the `# file: ` head.) -/
def wfSidecar (c : List String) : Prop :=
  ∀ s ∈ splitSep c, (∀ l ∈ s.tail, hasMarker l = false) ∧
    (hasMarker (s.headD "") = true →
      pyStartsWith (s.headD "") "# file: " = true ∧ pyStrip (s.headD "") = s.headD "")

instance (c : List String) : Decidable (wfSidecar c) := by
  unfold wfSidecar
  infer_instance

/-- No path of the filesystem ends in a slash (true of every path the code
ever creates; rules out collisions with the phantom `<base>/` lookups that
arise from empty stanza filenames). -/
def noTrailingSlash (fs : FS) : Prop :=
  ∀ e ∈ fs, e.path.data.getLast? ≠ some '/'

instance (fs : FS) : Decidable (noTrailingSlash fs) := by
  unfold noTrailingSlash
  infer_instance

/-- The pure content transformation `remove_links_from_tcattr` performs at
base `b`, as a function of the structural shape only (the islink tests ignore
everything else). -/
def normCS (s : Shape) (b : String) (c : List String) : List String :=
  ((splitSep c).filter
    (fun st => ¬ islinkS s (pjoin b (stanzaFilename st)))).flatMap
    (fun st => st ++ [""])

/-- The base directory of the sidecar whose records survive the
first-loop reassignment: the last walked directory whose filenames contain
`.tcattr`. -/
def lastSidecarBase (w : List WalkTriple) : Option String :=
  ((w.filter (fun t => decide (".tcattr" ∈ t.2.2))).map (fun t => t.1)).getLast?

/-- The last ACL description a stanza list assigns to the file `q` (relative
to base `b`) during an ACL restore, if any. -/
def lastWrite (b q : String) : List (List String) → Option (List String)
  | [] => none
  | st :: rest =>
    match lastWrite b q rest with
    | some v => some v
    | none =>
      if pyStartsWith (st.headD "") "# file: " = true ∧
          pjoin b (pyReplace (st.headD "") "# file: " "") = q then
        some st.tail
      else none

/-- The fields of an entry untouched by `set_file_mode` (ownership/mode
writes). -/
def projAC (e : FEntry) : String × FKind × Option (List String) × List String :=
  (e.path, e.kind, e.acl, e.content)

/-! ## Concrete fixtures -/

/-- A change-set with two sidecar files in different subdirectories. -/
def fsC1 : FS := [
  ⟨"/cs", .dir, 0o700, 1000, 1000, none, []⟩,
  ⟨"/cs/a", .dir, 0o700, 1000, 1000, none, []⟩,
  ⟨"/cs/b", .dir, 0o700, 1000, 1000, none, []⟩,
  ⟨"/cs/a/.tcattr", .file, 0o644, 1000, 1000, none, ["# file: fa", "user::rw-"]⟩,
  ⟨"/cs/a/fa", .file, 0o644, 1000, 1000, none, []⟩,
  ⟨"/cs/b/.tcattr", .file, 0o644, 1000, 1000, none, ["# file: fb", "user::rwx"]⟩,
  ⟨"/cs/b/fb", .file, 0o644, 1000, 1000, none, []⟩ ]

/-- A caller-owned change-set directory given by an absolute path. -/
def fsC3 : FS := [
  ⟨"/st", .dir, 0o755, 0, 0, none, []⟩,
  ⟨"/tmp", .dir, 0o777, 0, 0, none, []⟩,
  ⟨"/data/cs", .dir, 0o755, 1000, 1000, none, []⟩,
  ⟨"/data/cs/f", .file, 0o644, 1000, 1000, none, []⟩ ]

/-- Union input state: an existing storage directory, `/tmp`, and a
caller-owned relative change-set `present`; no directory `missing`. -/
def fsC2 : FS := [
  ⟨"/st", .dir, 0o755, 0, 0, none, []⟩,
  ⟨"/tmp", .dir, 0o777, 0, 0, none, []⟩,
  ⟨"present", .dir, 0o755, 1000, 1000, none, []⟩,
  ⟨"present/f", .file, 0o644, 1000, 1000, none, []⟩ ]

/-- A change-set whose sidecar consists of a single stanza that is missing
its `# file: ` marker line. -/
def fsC4 : FS := [
  ⟨"/c4", .dir, 0o700, 1000, 1000, none, []⟩,
  ⟨"/c4/.tcattr", .file, 0o644, 1000, 1000, none, ["foo", "user::rw-"]⟩,
  ⟨"/c4/foo", .file, 0o640, 1000, 1000, none, []⟩ ]

/-- A change-set with one sidecar recording only the file `g`. -/
def fsC5 : FS := [
  ⟨"/c5", .dir, 0o700, 1000, 1000, none, []⟩,
  ⟨"/c5/.tcattr", .file, 0o644, 1000, 1000, none, ["# file: g", "user::rw-"]⟩,
  ⟨"/c5/g", .file, 0o644, 1000, 1000, none, []⟩ ]

/-- A change-set with one recorded file `h` and one unrecorded file `k`. -/
def fsC6 : FS := [
  ⟨"/c6", .dir, 0o700, 1000, 1000, none, []⟩,
  ⟨"/c6/.tcattr", .file, 0o644, 1000, 1000, none, ["# file: h", "user::rwx"]⟩,
  ⟨"/c6/h", .file, 0o644, 1000, 1000, none, []⟩,
  ⟨"/c6/k", .file, 0o644, 1000, 1000, none, []⟩ ]

/-- A change-set whose sidecar records the file `x` (and nothing else). -/
def fsC8 : FS := [
  ⟨"/c8", .dir, 0o700, 1000, 1000, none, []⟩,
  ⟨"/c8/.tcattr", .file, 0o644, 1000, 1000, none, ["# file: x", "user::rw-"]⟩,
  ⟨"/c8/x", .file, 0o644, 1000, 1000, none, []⟩ ]

/-- A sidecar-free change-set with one of each classification: subdirectory,
executable file, plain file, symbolic link. -/
def fsC5w : FS := [
  ⟨"/w5", .dir, 0o700, 1000, 1000, none, []⟩,
  ⟨"/w5/sub", .dir, 0o700, 1000, 1000, none, []⟩,
  ⟨"/w5/exe", .file, 0o744, 1000, 1000, none, []⟩,
  ⟨"/w5/plain", .file, 0o644, 1000, 1000, none, []⟩,
  ⟨"/w5/ln", .linkToOther, 0o777, 1000, 1000, none, []⟩ ]

/-- A change-set whose sidecar records a symlink `lnk` and a regular file
`reg`. -/
def fsC7w : FS := [
  ⟨"/w7", .dir, 0o700, 1000, 1000, none, []⟩,
  ⟨"/w7/.tcattr", .file, 0o644, 1000, 1000, none,
    ["# file: lnk", "user::rwx", "", "# file: reg", "user::rw-"]⟩,
  ⟨"/w7/lnk", .linkToOther, 0o777, 1000, 1000, none, []⟩,
  ⟨"/w7/reg", .file, 0o644, 1000, 1000, none, []⟩ ]

/-- Union input state where both fixed staging roots are left over from a
previous invocation. -/
def fsC10w : FS := [
  ⟨"/st", .dir, 0o755, 0, 0, none, []⟩,
  ⟨"/tmp", .dir, 0o777, 0, 0, none, []⟩,
  ⟨"/tmp/changes_dirs", .dir, 0o755, 0, 0, none, []⟩,
  ⟨"/tmp/extra_changes_dirs", .dir, 0o755, 0, 0, none, []⟩,
  ⟨"present", .dir, 0o755, 1000, 1000, none, []⟩ ]

/-- A change-set with one sidecar recording the file `f`, plus an unrecorded
file `g` that falls to the default policy. -/
def fsC9w : FS := [
  ⟨"/cs", .dir, 0o700, 1000, 1000, none, []⟩,
  ⟨"/cs/.tcattr", .file, 0o600, 1000, 1000, none,
    ["# file: f", "user::rw-", ""]⟩,
  ⟨"/cs/f", .file, 0o640, 1000, 1000, none, []⟩,
  ⟨"/cs/g", .file, 0o755, 1000, 1000, none, []⟩ ]

/-! ## Helper lemmas: entry lookup and shape preservation -/

theorem findEntry_cons (e : FEntry) (es : FS) (p : String) :
    findEntry (e :: es) p = if e.path = p then some e else findEntry es p := by
  by_cases h : e.path = p
  · simp [findEntry, List.find?_cons_of_pos, h]
  · simp [findEntry, List.find?_cons_of_neg, h]

theorem updEntry_cons (e : FEntry) (es : FS) (p : String) (f : FEntry → FEntry) :
    updEntry (e :: es) p f = (if e.path = p then f e else e) :: updEntry es p f := by
  by_cases h : e.path = p <;> simp [updEntry, h]

theorem findEntry_updEntry_self (fs : FS) (p : String) (f : FEntry → FEntry)
    (hf : ∀ e, (f e).path = e.path) :
    findEntry (updEntry fs p f) p = (findEntry fs p).map f := by
  induction fs with
  | nil => rfl
  | cons e es ih =>
    rw [updEntry_cons, findEntry_cons, findEntry_cons]
    by_cases h : e.path = p
    · simp [h, hf]
    · simp [h, ih]

theorem findEntry_updEntry_ne (fs : FS) (p : String) (f : FEntry → FEntry)
    (hf : ∀ e, (f e).path = e.path) (q : String) (hq : q ≠ p) :
    findEntry (updEntry fs p f) q = findEntry fs q := by
  induction fs with
  | nil => rfl
  | cons e es ih =>
    rw [updEntry_cons, findEntry_cons, findEntry_cons]
    by_cases h : e.path = p
    · have hfq : (f e).path = e.path := hf e
      have hpq : ¬ p = q := fun hc => hq (hc.symm.trans rfl)
      simp [h, hfq, hpq, ih]
    · by_cases h2 : e.path = q
      · simp [h, h2, hq]
      · simp [h, h2, ih]

theorem shapeOf_updEntry (fs : FS) (p : String) (f : FEntry → FEntry)
    (hf : ∀ e, (f e).path = e.path ∧ (f e).kind = e.kind) :
    shapeOf (updEntry fs p f) = shapeOf fs := by
  simp only [shapeOf, updEntry, List.map_map]
  refine List.map_congr_left fun e _ => ?_
  by_cases h : e.path = p <;> simp [Function.comp, h, (hf e).1, (hf e).2]

theorem shapeOf_chownFS (fs : FS) (p : String) (u g : Nat) :
    shapeOf (chownFS fs p u g) = shapeOf fs :=
  shapeOf_updEntry fs p _ (fun _ => ⟨rfl, rfl⟩)

theorem shapeOf_chmodFS (fs : FS) (p : String) (m : Nat) :
    shapeOf (chmodFS fs p m) = shapeOf fs :=
  shapeOf_updEntry fs p _ (fun _ => ⟨rfl, rfl⟩)

theorem shapeOf_setAclFS (fs : FS) (p : String) (a : List String) :
    shapeOf (setAclFS fs p a) = shapeOf fs :=
  shapeOf_updEntry fs p _ (fun _ => ⟨rfl, rfl⟩)

theorem shapeOf_setContentFS (fs : FS) (p : String) (c : List String) :
    shapeOf (setContentFS fs p c) = shapeOf fs :=
  shapeOf_updEntry fs p _ (fun _ => ⟨rfl, rfl⟩)

theorem kindAtS_cons (x : String × FKind) (s : Shape) (p : String) :
    kindAtS (x :: s) p = if x.1 = p then some x.2 else kindAtS s p := by
  by_cases h : x.1 = p
  · simp [kindAtS, List.find?_cons_of_pos, h]
  · simp [kindAtS, List.find?_cons_of_neg, h]

theorem kindAtS_shapeOf (fs : FS) (p : String) :
    kindAtS (shapeOf fs) p = (findEntry fs p).map FEntry.kind := by
  induction fs with
  | nil => rfl
  | cons e es ih =>
    rw [shapeOf, List.map_cons, kindAtS_cons, findEntry_cons]
    by_cases h : e.path = p
    · simp [h]
    · simpa [h] using ih

theorem existsFS_eq_kindAtS (fs : FS) (p : String) :
    existsFS fs p = (kindAtS (shapeOf fs) p).isSome := by
  rw [kindAtS_shapeOf]
  simp [existsFS]

theorem islinkFS_congr {fs1 fs2 : FS} (h : shapeOf fs1 = shapeOf fs2) (p : String) :
    islinkFS fs1 p = islinkFS fs2 p := by
  simp [islinkFS, h]

theorem isdirFS_congr {fs1 fs2 : FS} (h : shapeOf fs1 = shapeOf fs2) (p : String) :
    isdirFS fs1 p = isdirFS fs2 p := by
  simp [isdirFS, h]

theorem existsFS_congr {fs1 fs2 : FS} (h : shapeOf fs1 = shapeOf fs2) (p : String) :
    existsFS fs1 p = existsFS fs2 p := by
  rw [existsFS_eq_kindAtS, existsFS_eq_kindAtS, h]

theorem shapeOf_set_file_mode (fs : FS) (p : String) (m : Nat) :
    shapeOf (set_file_mode fs p m).1 = shapeOf fs := by
  unfold set_file_mode
  dsimp only
  split
  · rw [shapeOf_chmodFS, shapeOf_chownFS]
  · rw [shapeOf_chownFS]

theorem shapeOf_apply_default_acl (files : List String) (fs : FS) :
    shapeOf (apply_default_acl fs files).1 = shapeOf fs := by
  induction files generalizing fs with
  | nil => rfl
  | cons f rest ih =>
    unfold apply_default_acl
    dsimp only
    rw [ih, shapeOf_set_file_mode]

theorem shapeOf_restoreStanzas (l : List (List String)) (b : String) (fs : FS) :
    shapeOf (restoreStanzas b fs l) = shapeOf fs := by
  induction l generalizing fs with
  | nil => rfl
  | cons s rest ih =>
    unfold restoreStanzas
    rw [ih]
    split
    · rw [shapeOf_setAclFS]
    · rfl

theorem shapeOf_restoreAclFile (fs : FS) (b : String) :
    shapeOf (restoreAclFile fs b) = shapeOf fs :=
  shapeOf_restoreStanzas _ _ _

theorem shapeOf_apply_tcattr_go (bs : List String) (fs : FS) :
    shapeOf (apply_tcattr_acl.go fs bs).1 = shapeOf fs := by
  induction bs generalizing fs with
  | nil => rfl
  | cons b rest ih =>
    unfold apply_tcattr_acl.go
    dsimp only
    rw [ih, shapeOf_restoreAclFile]

theorem shapeOf_apply_tcattr_acl (fs : FS) (files : List (String × String)) :
    shapeOf (apply_tcattr_acl fs files).1 = shapeOf fs :=
  shapeOf_apply_tcattr_go _ _

theorem shapeOf_remove_links (fs : FS) (b : String) :
    shapeOf (remove_links_from_tcattr fs b).1 = shapeOf fs := by
  unfold remove_links_from_tcattr
  dsimp only
  rw [shapeOf_setContentFS]

theorem shapeOf_sidecar_pass (w : List WalkTriple) (fs : FS) (recs : List (String × String)) :
    shapeOf (sidecar_pass fs recs w).1 = shapeOf fs := by
  induction w generalizing fs recs with
  | nil => rfl
  | cons t ts ih =>
    unfold sidecar_pass
    split
    · dsimp only
      rw [ih, shapeOf_remove_links]
    · exact ih _ _

theorem shapeOf_set_acl_attributes (fs : FS) (d : String) :
    shapeOf (set_acl_attributes fs d).1 = shapeOf fs := by
  unfold set_acl_attributes
  dsimp only
  rw [shapeOf_apply_default_acl, shapeOf_apply_tcattr_acl, shapeOf_sidecar_pass]

/-! ## Helper lemmas: per-entry frames -/

theorem findEntry_map_proj_updEntry {α : Type} (π : FEntry → α) (fs : FS) (p : String)
    (f : FEntry → FEntry) (q : String)
    (hfp : ∀ e, (f e).path = e.path) (hπ : ∀ e, π (f e) = π e) :
    (findEntry (updEntry fs p f) q).map π = (findEntry fs q).map π := by
  by_cases h : q = p
  · subst h
    rw [findEntry_updEntry_self _ _ _ hfp]
    cases findEntry fs q <;> simp [hπ]
  · rw [findEntry_updEntry_ne _ _ _ hfp _ h]

theorem findEntry_restoreStanzas_projNA (l : List (List String)) (b : String) (fs : FS)
    (p : String) :
    (findEntry (restoreStanzas b fs l) p).map projNA = (findEntry fs p).map projNA := by
  induction l generalizing fs with
  | nil => rfl
  | cons s rest ih =>
    unfold restoreStanzas
    rw [ih]
    split
    · exact findEntry_map_proj_updEntry projNA _ _ _ _ (fun _ => rfl) (fun _ => rfl)
    · rfl

theorem findEntry_restoreAclFile_projNA (fs : FS) (b p : String) :
    (findEntry (restoreAclFile fs b) p).map projNA = (findEntry fs p).map projNA :=
  findEntry_restoreStanzas_projNA _ _ _ _

theorem findEntry_apply_tcattr_go_projNA (bs : List String) (fs : FS) (p : String) :
    (findEntry (apply_tcattr_acl.go fs bs).1 p).map projNA = (findEntry fs p).map projNA := by
  induction bs generalizing fs with
  | nil => rfl
  | cons b rest ih =>
    unfold apply_tcattr_acl.go
    dsimp only
    rw [ih, findEntry_restoreAclFile_projNA]

theorem findEntry_apply_tcattr_acl_projNA (fs : FS) (files : List (String × String))
    (p : String) :
    (findEntry (apply_tcattr_acl fs files).1 p).map projNA = (findEntry fs p).map projNA :=
  findEntry_apply_tcattr_go_projNA _ _ _

theorem findEntry_sidecar_pass_projM (w : List WalkTriple) (fs : FS)
    (recs : List (String × String)) (p : String) :
    (findEntry (sidecar_pass fs recs w).1 p).map projM = (findEntry fs p).map projM := by
  induction w generalizing fs recs with
  | nil => rfl
  | cons t ts ih =>
    unfold sidecar_pass
    split
    · dsimp only
      rw [ih]
      exact findEntry_map_proj_updEntry projM _ _ _ _ (fun _ => rfl) (fun _ => rfl)
    · exact ih _ _

theorem projCore_of_projM {e e' : FEntry} (h : projM e = projM e') : projCore e = projCore e' := by
  simp [projM, projCore] at h ⊢
  tauto

theorem projCore_of_projNA {e e' : FEntry} (h : projNA e = projNA e') :
    projCore e = projCore e' := by
  simp [projNA, projCore] at h ⊢
  tauto

theorem findEntry_chownFS_ne (fs : FS) (f : String) (u g : Nat) (p : String) (h : p ≠ f) :
    findEntry (chownFS fs f u g) p = findEntry fs p :=
  findEntry_updEntry_ne fs f (fun e => { e with uid := u, gid := g }) (fun _ => rfl) p h

theorem findEntry_chownFS_self (fs : FS) (f : String) (u g : Nat) :
    findEntry (chownFS fs f u g) f =
      (findEntry fs f).map (fun e => { e with uid := u, gid := g }) :=
  findEntry_updEntry_self fs f (fun e => { e with uid := u, gid := g }) (fun _ => rfl)

theorem findEntry_chmodFS_ne (fs : FS) (f : String) (m : Nat) (p : String) (h : p ≠ f) :
    findEntry (chmodFS fs f m) p = findEntry fs p :=
  findEntry_updEntry_ne fs f (fun e => { e with mode := m }) (fun _ => rfl) p h

theorem findEntry_chmodFS_self (fs : FS) (f : String) (m : Nat) :
    findEntry (chmodFS fs f m) f = (findEntry fs f).map (fun e => { e with mode := m }) :=
  findEntry_updEntry_self fs f (fun e => { e with mode := m }) (fun _ => rfl)

theorem findEntry_setContentFS_self (fs : FS) (f : String) (c : List String) :
    findEntry (setContentFS fs f c) f =
      (findEntry fs f).map (fun e => { e with content := c }) :=
  findEntry_updEntry_self fs f (fun e => { e with content := c }) (fun _ => rfl)

theorem findEntry_setContentFS_ne (fs : FS) (f : String) (c : List String) (p : String)
    (h : p ≠ f) :
    findEntry (setContentFS fs f c) p = findEntry fs p :=
  findEntry_updEntry_ne fs f (fun e => { e with content := c }) (fun _ => rfl) p h

theorem findEntry_setAclFS_self (fs : FS) (f : String) (a : List String) :
    findEntry (setAclFS fs f a) f = (findEntry fs f).map (fun e => { e with acl := some a }) :=
  findEntry_updEntry_self fs f (fun e => { e with acl := some a }) (fun _ => rfl)

theorem findEntry_setAclFS_ne (fs : FS) (f : String) (a : List String) (p : String)
    (h : p ≠ f) :
    findEntry (setAclFS fs f a) p = findEntry fs p :=
  findEntry_updEntry_ne fs f (fun e => { e with acl := some a }) (fun _ => rfl) p h

theorem islinkFS_eq_findEntry (fs : FS) (p : String) :
    islinkFS fs p = ((findEntry fs p).map (fun e => e.kind.isLink)).getD false := by
  rw [islinkFS, islinkS, kindAtS_shapeOf]
  cases findEntry fs p <;> rfl

theorem isdirFS_eq_findEntry (fs : FS) (p : String) :
    isdirFS fs p = ((findEntry fs p).map (fun e => e.kind.isDirLike)).getD false := by
  rw [isdirFS, isdirS, kindAtS_shapeOf]
  cases findEntry fs p <;> rfl

theorem set_file_mode_fst (fs : FS) (f : String) (m : Nat) :
    (set_file_mode fs f m).1 =
      if islinkFS fs f then chownFS fs f 0 0 else chmodFS (chownFS fs f 0 0) f m := by
  unfold set_file_mode
  dsimp only
  rw [islinkFS_congr (shapeOf_chownFS fs f 0 0) f]
  by_cases hL : islinkFS fs f <;> simp [hL]

theorem set_file_mode_snd (fs : FS) (f : String) (m : Nat) :
    (set_file_mode fs f m).2 =
      if islinkFS fs f then [Ev.chown f 0 0] else [Ev.chown f 0 0, Ev.chmod f m] := by
  unfold set_file_mode
  dsimp only
  rw [islinkFS_congr (shapeOf_chownFS fs f 0 0) f]
  by_cases hL : islinkFS fs f <;> simp [hL]

theorem findEntry_set_file_mode_ne (fs : FS) (f : String) (m : Nat) (p : String)
    (h : p ≠ f) :
    findEntry (set_file_mode fs f m).1 p = findEntry fs p := by
  rw [set_file_mode_fst]
  split
  · rw [findEntry_chownFS_ne _ _ _ _ _ h]
  · rw [findEntry_chmodFS_ne _ _ _ _ h, findEntry_chownFS_ne _ _ _ _ _ h]

theorem findEntry_apply_default_acl_not_mem (files : List String) (fs : FS) (p : String)
    (hp : p ∉ files) :
    findEntry (apply_default_acl fs files).1 p = findEntry fs p := by
  induction files generalizing fs with
  | nil => rfl
  | cons f rest ih =>
    unfold apply_default_acl
    dsimp only
    rw [ih _ (fun hc => hp (List.mem_cons_of_mem _ hc)),
      findEntry_set_file_mode_ne _ _ _ _ (fun hc => hp (by rw [hc]; exact List.mem_cons_self _ _))]

theorem findEntry_set_file_mode_self_eq (fs : FS) (p : String) (e : FEntry)
    (hfe : findEntry fs p = some e) :
    findEntry
        (set_file_mode fs p
          (if isdirFS fs p then 0o755
            else if statModeNF fs p &&& 0o111 ≠ 0 then 0o770 else 0o660)).1 p =
      some (defaultTarget e) := by
  rw [set_file_mode_fst, islinkFS_eq_findEntry, isdirFS_eq_findEntry, statModeNF, hfe]
  cases hL : e.kind.isLink with
  | true =>
    simp only [Option.map_some', Option.getD_some, hL, if_true]
    rw [findEntry_chownFS_self, hfe]
    simp [defaultTarget, hL]
  | false =>
    simp only [Option.map_some', Option.getD_some, hL, Bool.false_eq_true,
      if_neg (fun hc : False => hc)]
    rw [findEntry_chmodFS_self, findEntry_chownFS_self, hfe]
    simp [defaultTarget, hL]

theorem findEntry_apply_default_acl_mem (files : List String) (fs : FS) (p : String)
    (hnd : files.Nodup) (hp : p ∈ files) (e : FEntry) (hfe : findEntry fs p = some e) :
    findEntry (apply_default_acl fs files).1 p = some (defaultTarget e) := by
  induction files generalizing fs with
  | nil => cases hp
  | cons f rest ih =>
    unfold apply_default_acl
    dsimp only
    by_cases hpf : p = f
    · subst hpf
      have hnrest : p ∉ rest := (List.nodup_cons.mp hnd).1
      rw [findEntry_apply_default_acl_not_mem _ _ _ hnrest]
      exact findEntry_set_file_mode_self_eq fs p e hfe
    · have hprest : p ∈ rest := by
        rcases List.mem_cons.mp hp with hc | hc
        · exact absurd hc hpf
        · exact hc
      refine ih _ (List.nodup_cons.mp hnd).2 hprest ?_
      rw [findEntry_set_file_mode_ne _ _ _ _ hpf, hfe]

theorem defaultTarget_uid (e : FEntry) : (defaultTarget e).uid = 0 := by
  unfold defaultTarget
  dsimp only
  split <;> rfl

theorem defaultTarget_gid (e : FEntry) : (defaultTarget e).gid = 0 := by
  unfold defaultTarget
  dsimp only
  split <;> rfl

theorem defaultTarget_kind (e : FEntry) : (defaultTarget e).kind = e.kind := by
  unfold defaultTarget
  dsimp only
  split <;> rfl

theorem defaultTarget_mode (e : FEntry) :
    (defaultTarget e).mode =
      (if e.kind.isLink then e.mode
        else if e.kind.isDirLike then 0o755
        else if e.mode &&& 0o111 ≠ 0 then 0o770 else 0o660) := by
  unfold defaultTarget
  dsimp only
  split <;> simp_all

theorem projCore_fields {e e' : FEntry} (h : projCore e = projCore e') :
    e.path = e'.path ∧ e.kind = e'.kind ∧ e.mode = e'.mode ∧ e.uid = e'.uid ∧
      e.gid = e'.gid := by
  simpa [projCore] using h

theorem remove_links_content_some (fs : FS) (b : String) (e : FEntry)
    (hfe : findEntry fs (pjoin b ".tcattr") = some e) :
    contentOf (remove_links_from_tcattr fs b).1 (pjoin b ".tcattr") =
      ((splitSep (contentOf fs (pjoin b ".tcattr"))).filter
        (fun s => ¬ islinkFS fs (pjoin b (stanzaFilename s)))).flatMap
        (fun s => s ++ [""]) := by
  unfold remove_links_from_tcattr
  dsimp only
  rw [contentOf, findEntry_setContentFS_self, hfe]
  rfl

theorem remove_links_content_none (fs : FS) (b : String)
    (hfe : findEntry fs (pjoin b ".tcattr") = none) :
    contentOf (remove_links_from_tcattr fs b).1 (pjoin b ".tcattr") = [] := by
  unfold remove_links_from_tcattr
  dsimp only
  rw [contentOf, findEntry_setContentFS_self, hfe]
  rfl

theorem getLast?_pjoin_nil (b : String) : (pjoin b "").data.getLast? = some '/' := by
  have h : pjoin b "" = b ++ "/" ++ "" := rfl
  rw [h, String.data_append, String.data_append]
  rw [show ("" : String).data = [] from rfl, List.append_nil]
  exact List.getLast?_concat _

theorem stanzaFilename_nil : stanzaFilename [] = "" := rfl

/-! ## Helper lemmas: walk structure and event provenance -/

theorem string_ext {a b : String} (h : a.data = b.data) : a = b := by
  cases a
  cases b
  exact congrArg String.mk h

theorem mem_childNamesS_spec {s : Shape} {p n : String} (h : n ∈ childNamesS s p) :
    n.data ≠ [] ∧ n.data.contains '/' = false ∧ ∃ k, (p ++ "/" ++ n, k) ∈ s := by
  obtain ⟨e, he, hfe⟩ := List.mem_filterMap.mp h
  dsimp only at hfe
  split at hfe
  case isFalse => cases hfe
  case isTrue h1 =>
    split at hfe
    case isFalse => cases hfe
    case isTrue h2 =>
      have ht : (p ++ "/").data ++ e.1.data.drop (p ++ "/").data.length = e.1.data :=
        List.prefix_iff_eq_append.mp (List.isPrefixOf_iff_prefix.mp h1)
      have hn : n.data = e.1.data.drop (p ++ "/").data.length := by
        have := hfe
        injection this with hmk
        rw [← hmk]
      refine ⟨?_, ?_, e.2, ?_⟩
      · rw [hn]
        exact h2.1
      · rw [hn]
        exact Bool.eq_false_iff.mpr (fun hc => h2.2 hc)
      · have hpath : e.1 = p ++ "/" ++ n := by
          refine string_ext ?_
          rw [String.data_append, String.data_append, hn, ← String.data_append]
          exact ht.symm
        rw [← hpath]
        exact he

theorem isAbsPath_eq_false_of {n : String} (hne : n.data ≠ [])
    (hsl : n.data.contains '/' = false) : isAbsPath n = false := by
  unfold isAbsPath
  cases hd : n.data with
  | nil => rfl
  | cons c t =>
    rw [hd] at hsl
    have hc : '/' ∉ (c :: t) := by simpa using hsl
    have hcc : ¬ (c = '/') := fun h => hc (h ▸ List.mem_cons_self c t)
    exact decide_eq_false hcc

theorem pjoin_of_name {p n : String} (hne : n.data ≠ [])
    (hsl : n.data.contains '/' = false) : pjoin p n = p ++ "/" ++ n := by
  rw [pjoin, isAbsPath_eq_false_of hne hsl]
  rfl

theorem walkAux_triple_mem {s : Shape} {fuel : Nat} {root : String} {t : WalkTriple}
    (h : t ∈ walkAux s fuel root) :
    t.2.1 = (childNamesS s t.1).filter (fun n => isdirS s (pjoin t.1 n)) ∧
    t.2.2 = (childNamesS s t.1).filter (fun n => ¬ isdirS s (pjoin t.1 n)) := by
  induction fuel generalizing root with
  | zero => cases h
  | succ fuel ih =>
    rw [walkAux] at h
    rcases List.mem_cons.mp h with h | h
    · subst h
      exact ⟨rfl, rfl⟩
    · obtain ⟨n, _, hw⟩ := List.mem_flatMap.mp h
      exact ih hw

theorem walked_name_spec {s : Shape} {fuel : Nat} {root : String} {t : WalkTriple}
    {n : String} (ht : t ∈ walkAux s fuel root) (hn : n ∈ t.2.1 ++ t.2.2) :
    n.data ≠ [] ∧ n.data.contains '/' = false ∧ ∃ k, (t.1 ++ "/" ++ n, k) ∈ s := by
  obtain ⟨h1, h2⟩ := walkAux_triple_mem ht
  have hcn : n ∈ childNamesS s t.1 := by
    rcases List.mem_append.mp hn with h | h
    · exact (List.mem_filter.mp (h1 ▸ h)).1
    · exact (List.mem_filter.mp (h2 ▸ h)).1
  exact mem_childNamesS_spec hcn

theorem walked_name_entry {fs : FS} {d : String} {t : WalkTriple} {n : String}
    (ht : t ∈ walkS (shapeOf fs) d) (hn : n ∈ t.2.1 ++ t.2.2) :
    ∃ e, e ∈ fs ∧ e.path = pjoin t.1 n := by
  obtain ⟨hne, hsl, k, hk⟩ := walked_name_spec ht hn
  obtain ⟨e, he, hpe⟩ := List.mem_map.mp hk
  refine ⟨e, he, ?_⟩
  rw [pjoin_of_name hne hsl]
  have := congrArg Prod.fst hpe
  simpa using this

theorem contains_false_iff (l : List String) (a : String) :
    l.contains a = false ↔ a ∉ l := by
  simp

theorem mem_default_paths {w : List WalkTriple} {recs : List (String × String)}
    {q : String} :
    q ∈ default_paths w recs ↔
      ∃ t ∈ w, ∃ n ∈ t.2.1 ++ t.2.2, q = pjoin t.1 n ∧ n ≠ ".tcattr" ∧
        ((recs.map (fun f => pjoin f.1 f.2)).contains q) = false := by
  unfold default_paths
  rw [List.mem_flatMap]
  constructor
  · rintro ⟨t, ht, hq⟩
    obtain ⟨n, hn, hqn⟩ := List.mem_map.mp hq
    have hf := List.mem_filter.mp hn
    have hcond := hf.2
    simp only [Bool.and_eq_true, bne_iff_ne, Bool.not_eq_true'] at hcond
    refine ⟨t, ht, n, hf.1, hqn.symm, hcond.1, ?_⟩
    rw [← hqn]
    exact hcond.2
  · rintro ⟨t, ht, n, hn, rfl, hne, hcon⟩
    refine ⟨t, ht, List.mem_map.mpr ⟨n, List.mem_filter.mpr ⟨hn, ?_⟩, rfl⟩⟩
    rw [Bool.and_eq_true]
    exact ⟨by simpa using hne, by rw [hcon]; rfl⟩

theorem mem_firstDedup {l : List String} {x : String} (h : x ∈ firstDedup l) : x ∈ l := by
  induction l with
  | nil => cases h
  | cons y ys ih =>
    rw [firstDedup] at h
    rcases List.mem_cons.mp h with h | h
    · exact h ▸ List.mem_cons_self _ _
    · exact List.mem_cons_of_mem _ (ih (List.mem_filter.mp h).1)

theorem set_file_mode_events {fs : FS} {f : String} {m : Nat} {ev : Ev}
    (h : ev ∈ (set_file_mode fs f m).2) :
    (∃ u g, ev = .chown f u g) ∨ ∃ m', ev = .chmod f m' := by
  rw [set_file_mode_snd] at h
  split at h
  · rcases List.mem_singleton.mp h with rfl
    exact Or.inl ⟨0, 0, rfl⟩
  · rcases List.mem_cons.mp h with rfl | h
    · exact Or.inl ⟨0, 0, rfl⟩
    · rcases List.mem_singleton.mp h with rfl
      exact Or.inr ⟨m, rfl⟩

theorem apply_default_acl_events {files : List String} {fs : FS} {ev : Ev}
    (h : ev ∈ (apply_default_acl fs files).2) :
    ∃ p ∈ files, (∃ u g, ev = .chown p u g) ∨ ∃ m', ev = .chmod p m' := by
  induction files generalizing fs with
  | nil => cases h
  | cons f rest ih =>
    unfold apply_default_acl at h
    dsimp only at h
    rcases List.mem_append.mp h with h | h
    · exact ⟨f, List.mem_cons_self _ _, set_file_mode_events h⟩
    · obtain ⟨p, hp, hev⟩ := ih h
      exact ⟨p, List.mem_cons_of_mem _ hp, hev⟩

theorem apply_tcattr_go_events {bs : List String} {fs : FS} {ev : Ev}
    (h : ev ∈ (apply_tcattr_acl.go fs bs).2) :
    ∃ b ∈ bs, ev = .restore b := by
  induction bs generalizing fs with
  | nil => cases h
  | cons b rest ih =>
    unfold apply_tcattr_acl.go at h
    dsimp only at h
    rcases List.mem_cons.mp h with rfl | h
    · exact ⟨b, List.mem_cons_self _ _, rfl⟩
    · obtain ⟨b', hb', hev⟩ := ih h
      exact ⟨b', List.mem_cons_of_mem _ hb', hev⟩

theorem apply_tcattr_acl_events {fs : FS} {files : List (String × String)} {ev : Ev}
    (h : ev ∈ (apply_tcattr_acl fs files).2) :
    ∃ b ∈ files.map Prod.fst, ev = .restore b := by
  obtain ⟨b, hb, hev⟩ := apply_tcattr_go_events h
  exact ⟨b, mem_firstDedup hb, hev⟩

theorem sidecar_pass_events {w : List WalkTriple} {fs : FS}
    {recs : List (String × String)} {ev : Ev}
    (h : ev ∈ (sidecar_pass fs recs w).2.1) :
    ∃ t ∈ w, ev = .rewrite t.1 := by
  induction w generalizing fs recs with
  | nil => cases h
  | cons t ts ih =>
    unfold sidecar_pass at h
    split at h
    · dsimp only at h
      rcases List.mem_cons.mp h with rfl | h
      · exact ⟨t, List.mem_cons_self _ _, rfl⟩
      · obtain ⟨t', ht', hev⟩ := ih h
        exact ⟨t', List.mem_cons_of_mem _ ht', hev⟩
    · obtain ⟨t', ht', hev⟩ := ih h
      exact ⟨t', List.mem_cons_of_mem _ ht', hev⟩

theorem apply_default_acl_chmod_not_link {files : List String} {fs : FS} {p : String}
    {m : Nat} (h : Ev.chmod p m ∈ (apply_default_acl fs files).2) :
    islinkFS fs p = false := by
  induction files generalizing fs with
  | nil => cases h
  | cons f rest ih =>
    unfold apply_default_acl at h
    dsimp only at h
    rcases List.mem_append.mp h with h | h
    · rw [set_file_mode_snd] at h
      split at h
      · rcases List.mem_singleton.mp h with h
        cases h
      · rcases List.mem_cons.mp h with h | h
        · cases h
        · rcases List.mem_singleton.mp h with h
          injection h with h1 h2
          subst h1
          simp_all
    · have := ih h
      rwa [islinkFS_congr (shapeOf_set_file_mode fs f _) p] at this

theorem extract_records_fst {b : String} {c : List String} {r : String × String}
    (h : r ∈ extract_tcattr_records b c) : r.1 = b := by
  obtain ⟨line, _, hline⟩ := List.mem_map.mp h
  rw [← hline]

theorem sidecar_pass_records {w : List WalkTriple} {fs : FS}
    {recs : List (String × String)} {r : String × String}
    (h : r ∈ (sidecar_pass fs recs w).2.2) :
    r ∈ recs ∨ ∃ t ∈ w, r.1 = t.1 := by
  induction w generalizing fs recs with
  | nil => exact Or.inl h
  | cons t ts ih =>
    unfold sidecar_pass at h
    split at h
    · dsimp only at h
      rcases ih h with h | ⟨t', ht', hr⟩
      · exact Or.inr ⟨t, List.mem_cons_self _ _, extract_records_fst h⟩
      · exact Or.inr ⟨t', List.mem_cons_of_mem _ ht', hr⟩
    · rcases ih h with h | ⟨t', ht', hr⟩
      · exact Or.inl h
      · exact Or.inr ⟨t', List.mem_cons_of_mem _ ht', hr⟩

/-! ## Helper lemmas: stanza splitting -/

theorem splitSep_ne_nil (l : List String) : splitSep l ≠ [] := by
  cases l with
  | nil => simp [splitSep]
  | cons x xs =>
    rw [splitSep]
    split
    · simp
    · split <;> simp

theorem splitSep_cons (x : String) (xs : List String) :
    splitSep (x :: xs) =
      if x = "" then [] :: splitSep xs
      else (x :: (splitSep xs).headD []) :: (splitSep xs).tail := by
  rw [splitSep]
  cases hs : splitSep xs with
  | nil => exact absurd hs (splitSep_ne_nil xs)
  | cons c cs => by_cases hx : x = "" <;> simp [hx]

theorem mem_splitSep_no_sep {l : List String} {s : List String} (h : s ∈ splitSep l) :
    "" ∉ s := by
  induction l generalizing s with
  | nil =>
    rw [splitSep, List.mem_singleton] at h
    subst h
    simp
  | cons x xs ih =>
    rw [splitSep_cons] at h
    by_cases hx : x = ""
    · rw [if_pos hx] at h
      rcases List.mem_cons.mp h with rfl | h
      · simp
      · exact ih h
    · rw [if_neg hx] at h
      rcases List.mem_cons.mp h with rfl | h
      · intro hcon
        rcases List.mem_cons.mp hcon with hc | hc
        · exact hx hc.symm
        · cases hs : splitSep xs with
          | nil => exact absurd hs (splitSep_ne_nil xs)
          | cons c cs =>
            rw [hs] at hc
            simp only [List.headD_cons] at hc
            exact ih (by rw [hs]; exact List.mem_cons_self c cs) hc
      · exact ih (List.mem_of_mem_tail h)

theorem splitSep_append_chunk {c : List String} (l : List String) (hc : "" ∉ c) :
    splitSep (c ++ l) = (c ++ (splitSep l).headD []) :: (splitSep l).tail := by
  induction c with
  | nil =>
    cases hs : splitSep l with
    | nil => exact absurd hs (splitSep_ne_nil l)
    | cons h t => simp [hs]
  | cons x c' ih =>
    have hx : x ≠ "" := fun h => hc (h ▸ List.mem_cons_self x c')
    have hc' : "" ∉ c' := fun h => hc (List.mem_cons_of_mem x h)
    rw [List.cons_append, splitSep_cons, ih hc']
    simp [hx]

theorem splitSep_flatMap {A : List (List String)} (hA : ∀ c ∈ A, "" ∉ c) :
    splitSep (A.flatMap (fun s => s ++ [""])) = A ++ [[]] := by
  induction A with
  | nil => rfl
  | cons c A' ih =>
    have hc : "" ∉ c := hA c (List.mem_cons_self c A')
    have hA' : ∀ x ∈ A', "" ∉ x := fun x hx => hA x (List.mem_cons_of_mem c hx)
    rw [List.flatMap_cons, List.append_assoc, List.singleton_append,
      splitSep_append_chunk _ hc, splitSep_cons, ih hA']
    simp

theorem mem_of_mem_splitSep {l : List String} {s : List String} {x : String}
    (hs : s ∈ splitSep l) (hx : x ∈ s) : x ∈ l := by
  induction l generalizing s with
  | nil =>
    rw [splitSep, List.mem_singleton] at hs
    subst hs
    cases hx
  | cons y ys ih =>
    rw [splitSep_cons] at hs
    by_cases hy : y = ""
    · rw [if_pos hy] at hs
      rcases List.mem_cons.mp hs with rfl | hs
      · cases hx
      · exact List.mem_cons_of_mem _ (ih hs hx)
    · rw [if_neg hy] at hs
      rcases List.mem_cons.mp hs with rfl | hs
      · rcases List.mem_cons.mp hx with rfl | hx
        · exact List.mem_cons_self _ _
        · cases hsp : splitSep ys with
          | nil => exact absurd hsp (splitSep_ne_nil ys)
          | cons c cs =>
            rw [hsp] at hx
            simp only [List.headD_cons] at hx
            exact List.mem_cons_of_mem _
              (ih (by rw [hsp]; exact List.mem_cons_self c cs) hx)
      · exact List.mem_cons_of_mem _ (ih (List.mem_of_mem_tail hs) hx)

theorem mem_flatMap_chunks {A : List (List String)} {line : String}
    (h : line ∈ A.flatMap (fun s => s ++ [""])) : line = "" ∨ ∃ s ∈ A, line ∈ s := by
  obtain ⟨s, hs, hline⟩ := List.mem_flatMap.mp h
  rcases List.mem_append.mp hline with h | h
  · exact Or.inr ⟨s, hs, h⟩
  · exact Or.inl (List.mem_singleton.mp h)

/-! ## Helper lemmas: paths and lookups -/

theorem exists_entry_of_existsFS {fs : FS} {q : String} (h : existsFS fs q = true) :
    ∃ e ∈ fs, e.path = q := by
  rw [existsFS] at h
  rcases hfe : findEntry fs q with _ | e
  · rw [hfe] at h
    cases h
  · exact ⟨e, List.mem_of_find?_eq_some hfe, by simpa using List.find?_some hfe⟩

theorem existsFS_false_iff {fs : FS} {q : String} :
    existsFS fs q = false ↔ ∀ e ∈ fs, e.path ≠ q := by
  constructor
  · intro h e he hp
    rcases hfe : findEntry fs q with _ | e'
    · rw [findEntry, List.find?_eq_none] at hfe
      exact hfe e he (by simpa using hp)
    · rw [existsFS, hfe] at h
      cases h
  · intro h
    rcases hfe : findEntry fs q with _ | e'
    · rw [existsFS, hfe]
      rfl
    · exact absurd (by simpa using List.find?_some hfe)
        (h e' (List.mem_of_find?_eq_some hfe))

theorem findEntry_of_entry {fs : FS} {q : String} (h : ∃ e ∈ fs, e.path = q) :
    ∃ e', findEntry fs q = some e' ∧ e'.path = q := by
  rcases hfe : findEntry fs q with _ | e'
  · rw [findEntry, List.find?_eq_none] at hfe
    obtain ⟨e, he, hp⟩ := h
    exact absurd (by simpa using hp) (hfe e he)
  · exact ⟨e', rfl, by simpa using List.find?_some hfe⟩

theorem islinkFS_trailing_slash {fs : FS} {q : String}
    (hwf : ∀ e ∈ fs, e.path.data.getLast? ≠ some '/')
    (hq : q.data.getLast? = some '/') : islinkFS fs q = false := by
  rw [islinkFS_eq_findEntry]
  rcases hfe : findEntry fs q with _ | e
  · rfl
  · have he : e ∈ fs := List.mem_of_find?_eq_some hfe
    have hp : e.path = q := by simpa using List.find?_some hfe
    exact absurd (hp ▸ hq) (hwf e he)

theorem getLast?_append_slash (b : String) : (b ++ "/").data.getLast? = some '/' := by
  rw [String.data_append]
  exact List.getLast?_concat _

theorem takeWhile_append_stop {p : Char → Bool} {l : List Char} (x : Char) (r : List Char)
    (hl : ∀ c ∈ l, p c = true) (hx : p x = false) :
    (l ++ x :: r).takeWhile p = l := by
  induction l with
  | nil => simp [List.takeWhile, hx]
  | cons c cs ih =>
    have hc : p c = true := hl c (List.mem_cons_self _ _)
    rw [List.cons_append, List.takeWhile_cons, hc]
    simp only [if_true]
    rw [ih (fun d hd => hl d (List.mem_cons_of_mem _ hd))]

theorem pjoin_name_inj {a b n m : String}
    (hns : n.data.contains '/' = false) (hms : m.data.contains '/' = false)
    (h : a ++ "/" ++ n = b ++ "/" ++ m) : n = m := by
  have hd : a.data ++ '/' :: n.data = b.data ++ '/' :: m.data := by
    have := congrArg String.data h
    rw [String.data_append, String.data_append, String.data_append, String.data_append]
      at this
    simpa using this
  have hrev : n.data.reverse ++ '/' :: a.data.reverse =
      m.data.reverse ++ '/' :: b.data.reverse := by
    have := congrArg List.reverse hd
    simpa [List.reverse_append] using this
  have hpred : ∀ (l : List Char), l.contains '/' = false → ∀ c ∈ l.reverse,
      (c != '/') = true := by
    intro l hl c hc
    have : c ∈ l := List.mem_reverse.mp hc
    have : c ≠ '/' := fun hcc => by
      subst hcc
      rw [(by simpa using this : l.contains '/' = true)] at hl
      cases hl
    simpa using this
  have h1 : (n.data.reverse ++ '/' :: a.data.reverse).takeWhile (fun c => c != '/') =
      n.data.reverse :=
    takeWhile_append_stop _ _ (hpred n.data hns) (by simp)
  have h2 : (m.data.reverse ++ '/' :: b.data.reverse).takeWhile (fun c => c != '/') =
      m.data.reverse :=
    takeWhile_append_stop _ _ (hpred m.data hms) (by simp)
  have : n.data.reverse = m.data.reverse := by rw [← h1, ← h2, hrev]
  exact string_ext (by simpa using congrArg List.reverse this)

/-! ## Helper lemmas: staging isolation -/

theorem pyStartsWith_refl (a : String) : pyStartsWith a a = true :=
  List.isPrefixOf_iff_prefix.mpr (List.prefix_refl _)

theorem pyStartsWith_append (a x : String) : pyStartsWith (a ++ x) a = true := by
  rw [pyStartsWith, String.data_append]
  exact List.isPrefixOf_iff_prefix.mpr (List.prefix_append _ _)

theorem pyStartsWith_append2 (a x y : String) : pyStartsWith (a ++ x ++ y) a = true := by
  rw [String.append_assoc]
  exact pyStartsWith_append a (x ++ y)

theorem pyStartsWith_trans {c b a : String} (h1 : pyStartsWith b a = true)
    (h2 : pyStartsWith c b = true) : pyStartsWith c a = true :=
  List.isPrefixOf_iff_prefix.mpr
    ((List.isPrefixOf_iff_prefix.mp h1).trans (List.isPrefixOf_iff_prefix.mp h2))

theorem walk_base_under {s : Shape} {fuel : Nat} {root : String} {t : WalkTriple}
    (h : t ∈ walkAux s fuel root) : pyStartsWith t.1 root = true := by
  induction fuel generalizing root with
  | zero => cases h
  | succ fuel ih =>
    rw [walkAux] at h
    rcases List.mem_cons.mp h with rfl | h
    · exact pyStartsWith_refl root
    · obtain ⟨n, hn, hw⟩ := List.mem_flatMap.mp h
      have h1 := ih hw
      have hn2 : n ∈ childNamesS s root :=
        (List.mem_filter.mp (List.mem_filter.mp hn).1).1
      obtain ⟨hne, hsl, -⟩ := mem_childNamesS_spec hn2
      rw [pjoin_of_name hne hsl] at h1
      exact pyStartsWith_trans (pyStartsWith_append2 root "/" n) h1

theorem set_acl_events_under (fs : FS) (d : String) :
    ∀ ev ∈ (set_acl_attributes fs d).2, ∀ q, ev.mutTarget = some q →
      pyStartsWith q d = true := by
  intro ev hev q hq
  unfold set_acl_attributes at hev
  dsimp only at hev
  rcases List.mem_append.mp hev with h | h
  · rcases List.mem_append.mp h with h | h
    · obtain ⟨t, ht, rfl⟩ := sidecar_pass_events h
      rw [Ev.mutTarget, Option.some.injEq] at hq
      exact hq ▸ walk_base_under (by rw [walkS] at ht; exact ht)
    · obtain ⟨b, hb, rfl⟩ := apply_tcattr_acl_events h
      obtain ⟨r, hr, rfl⟩ := List.mem_map.mp hb
      rcases sidecar_pass_records hr with hc | ⟨t, ht, hrt⟩
      · cases hc
      · rw [Ev.mutTarget, Option.some.injEq] at hq
        exact hq ▸ hrt ▸ walk_base_under (by rw [walkS] at ht; exact ht)
  · obtain ⟨p, hp, hev'⟩ := apply_default_acl_events h
    have hq2 : q = p := by
      rcases hev' with ⟨u, g, rfl⟩ | ⟨m, rfl⟩ <;>
        · rw [Ev.mutTarget, Option.some.injEq] at hq
          exact hq.symm
    subst hq2
    obtain ⟨t, ht, n, hn, hqn, -, -⟩ := mem_default_paths.mp hp
    obtain ⟨hne, hsl, -⟩ := walked_name_spec (by rw [walkS] at ht; exact ht) hn
    rw [hqn, pjoin_of_name hne hsl]
    have hbase : pyStartsWith t.1 d = true := by
      rw [shapeOf_sidecar_pass] at ht
      exact walk_base_under (by rw [walkS] at ht; exact ht)
    exact pyStartsWith_trans hbase (pyStartsWith_append2 t.1 "/" n)

theorem existsFS_true_iff {fs : FS} {q : String} :
    existsFS fs q = true ↔ ∃ e ∈ fs, e.path = q := by
  constructor
  · exact exists_entry_of_existsFS
  · intro h
    obtain ⟨e', hfe, -⟩ := findEntry_of_entry h
    rw [existsFS, hfe]
    rfl

theorem mem_cpDot {fs : FS} {s d : String} {e : FEntry} (h : e ∈ cpDot fs s d) :
    e ∈ fs ∨ pyStartsWith e.path d = true := by
  unfold cpDot at h
  rcases List.mem_append.mp h with h | h
  · exact Or.inl h
  · obtain ⟨e0, _, he0⟩ := List.mem_filterMap.mp h
    right
    split at he0
    · injection he0 with he0
      rw [← he0]
      exact pyStartsWith_append _ _
    · cases he0

/-! ## Helper lemmas: idempotence kit -/

theorem string_append_right_cancel {a b x : String} (h : a ++ x = b ++ x) : a = b := by
  have hd : a.data ++ x.data = b.data ++ x.data := by
    have := congrArg String.data h
    rwa [String.data_append, String.data_append] at this
  have hrev : x.data.reverse ++ a.data.reverse = x.data.reverse ++ b.data.reverse := by
    have := congrArg List.reverse hd
    simpa [List.reverse_append] using this
  have : a.data.reverse = b.data.reverse := List.append_cancel_left hrev
  exact string_ext (by simpa using congrArg List.reverse this)

theorem pjoin_tcattr_inj {a b : String} (h : pjoin a ".tcattr" = pjoin b ".tcattr") :
    a = b := by
  have ha : pjoin a ".tcattr" = a ++ "/" ++ ".tcattr" := rfl
  have hb : pjoin b ".tcattr" = b ++ "/" ++ ".tcattr" := rfl
  rw [ha, hb] at h
  exact string_append_right_cancel (string_append_right_cancel h)

theorem splitSep_append_sep (x : List String) :
    splitSep (x ++ [""]) = splitSep x ++ [[]] := by
  induction x with
  | nil => rfl
  | cons y ys ih =>
    rw [List.cons_append, splitSep_cons, splitSep_cons, ih]
    by_cases hy : y = ""
    · simp [hy]
    · have hne : splitSep ys ≠ [] := splitSep_ne_nil ys
      cases hs : splitSep ys with
      | nil => exact absurd hs hne
      | cons c cs => simp [hy]

theorem restoreStanzas_append (A B : List (List String)) (b : String) (s : FS) :
    restoreStanzas b s (A ++ B) = restoreStanzas b (restoreStanzas b s A) B := by
  induction A generalizing s with
  | nil => rfl
  | cons st rest ih =>
    rw [List.cons_append, restoreStanzas, restoreStanzas, ih]

theorem findEntry_map_const_setAclFS {α : Type} (s : FS) (t : String) (v : List String)
    (q : String) (c : α) :
    (findEntry (setAclFS s t v) q).map (fun _ => c) = (findEntry s q).map (fun _ => c) := by
  by_cases h : q = t
  · subst h
    rw [findEntry_setAclFS_self]
    cases findEntry s q <;> rfl
  · rw [findEntry_setAclFS_ne _ _ _ _ h]

theorem restore_acl_spec (L : List (List String)) (b : String) (s : FS) (q : String) :
    (findEntry (restoreStanzas b s L) q).map FEntry.acl =
      (findEntry s q).map (fun e =>
        match lastWrite b q L with
        | some v => some v
        | none => e.acl) := by
  induction L generalizing s with
  | nil => rfl
  | cons st rest ih =>
    rw [restoreStanzas]
    simp only [lastWrite]
    by_cases h1 : pyStartsWith (st.headD "") "# file: " = true
    · rw [if_pos h1]
      by_cases h2 : pjoin b (pyReplace (st.headD "") "# file: " "") = q
      · rw [ih]
        cases hlw : lastWrite b q rest with
        | some v =>
          dsimp only
          rw [← h2]
          exact findEntry_map_const_setAclFS s _ st.tail _ (some v)
        | none =>
          dsimp only
          simp only [if_pos (And.intro h1 h2)]
          rw [← h2, findEntry_setAclFS_self]
          cases findEntry s (pjoin b (pyReplace (st.headD "") "# file: " "")) <;> rfl
      · rw [ih, findEntry_setAclFS_ne _ _ _ _ (fun hc => h2 hc.symm)]
        cases hlw : lastWrite b q rest with
        | some v => rfl
        | none =>
          dsimp only
          simp only [if_neg (fun hc : _ ∧ _ => h2 hc.2)]
    · rw [if_neg h1, ih]
      cases hlw : lastWrite b q rest with
      | some v => rfl
      | none =>
        dsimp only
        simp only [if_neg (fun hc : _ ∧ _ => h1 hc.1)]

theorem extract_append_sep (b : String) (x : List String) :
    extract_tcattr_records b (x ++ [""]) = extract_tcattr_records b x := by
  unfold extract_tcattr_records
  rw [List.filter_append]
  have : ([""] : List String).filter (fun line => hasMarker line) = [] := rfl
  rw [this, List.append_nil]

theorem firstDedup_const {l : List String} {b : String} (h : ∀ r ∈ l, r = b)
    (hne : l ≠ []) : firstDedup l = [b] := by
  induction l with
  | nil => exact absurd rfl hne
  | cons x xs ih =>
    have hx : x = b := h x (List.mem_cons_self _ _)
    rw [firstDedup]
    cases xs with
    | nil => simp [hx, firstDedup]
    | cons y ys =>
      have hys : firstDedup (y :: ys) = [b] :=
        ih (fun r hr => h r (List.mem_cons_of_mem _ hr)) (by simp)
      rw [hys, hx]
      simp

theorem apply_tcattr_acl_single {fs : FS} {R : List (String × String)} {b : String}
    (hfst : ∀ r ∈ R, r.1 = b) (hne : R ≠ []) :
    (apply_tcattr_acl fs R).1 = restoreAclFile fs b := by
  unfold apply_tcattr_acl
  have hdd : firstDedup (R.map Prod.fst) = [b] := by
    refine firstDedup_const ?_ ?_
    · intro r hr
      obtain ⟨x, hx, rfl⟩ := List.mem_map.mp hr
      exact hfst x hx
    · simp [hne]
  rw [hdd]
  rfl

theorem apply_tcattr_acl_nil (fs : FS) : (apply_tcattr_acl fs []).1 = fs := rfl

theorem findEntry_set_file_mode_projAC (fs : FS) (f : String) (m : Nat) (q : String) :
    (findEntry (set_file_mode fs f m).1 q).map projAC = (findEntry fs q).map projAC := by
  rw [set_file_mode_fst]
  split
  · exact findEntry_map_proj_updEntry projAC fs f
      (fun e => { e with uid := 0, gid := 0 }) q (fun _ => rfl) (fun _ => rfl)
  · rw [show chmodFS (chownFS fs f 0 0) f m =
        updEntry (chownFS fs f 0 0) f (fun e => { e with mode := m }) from rfl]
    rw [findEntry_map_proj_updEntry projAC _ f
      (fun e => { e with mode := m }) q (fun _ => rfl) (fun _ => rfl)]
    exact findEntry_map_proj_updEntry projAC fs f
      (fun e => { e with uid := 0, gid := 0 }) q (fun _ => rfl) (fun _ => rfl)

theorem findEntry_apply_default_acl_projAC (files : List String) (fs : FS) (q : String) :
    (findEntry (apply_default_acl fs files).1 q).map projAC =
      (findEntry fs q).map projAC := by
  induction files generalizing fs with
  | nil => rfl
  | cons f rest ih =>
    unfold apply_default_acl
    dsimp only
    rw [ih, findEntry_set_file_mode_projAC]

theorem defaultTarget_path (e : FEntry) : (defaultTarget e).path = e.path := by
  unfold defaultTarget
  dsimp only
  split <;> rfl

theorem defaultTarget_acl (e : FEntry) : (defaultTarget e).acl = e.acl := by
  unfold defaultTarget
  dsimp only
  split <;> rfl

theorem projM_defaultTarget_absorb {x y : FEntry} (h : projM x = projM (defaultTarget y)) :
    projM (defaultTarget x) = projM x := by
  have hk : x.kind = y.kind := by
    have h2 := congrArg (fun t : String × FKind × Nat × Nat × Nat × Option (List String) =>
      t.2.1) h
    simpa [projM, defaultTarget_kind] using h2
  have hm : x.mode = (defaultTarget y).mode := by
    have h2 := congrArg (fun t : String × FKind × Nat × Nat × Nat × Option (List String) =>
      t.2.2.1) h
    simpa [projM] using h2
  have hu : x.uid = 0 := by
    have h2 := congrArg (fun t : String × FKind × Nat × Nat × Nat × Option (List String) =>
      t.2.2.2.1) h
    simpa [projM, defaultTarget_uid] using h2
  have hg : x.gid = 0 := by
    have h2 := congrArg (fun t : String × FKind × Nat × Nat × Nat × Option (List String) =>
      t.2.2.2.2.1) h
    simpa [projM, defaultTarget_gid] using h2
  have hmode : (if x.kind.isLink then x.mode
      else if x.kind.isDirLike then (0o755 : Nat)
      else if x.mode &&& 0o111 ≠ 0 then 0o770 else 0o660) = x.mode := by
    rw [hk]
    cases hL : y.kind.isLink with
    | true => simp only [hL, if_true]
    | false =>
      simp only [hL, Bool.false_eq_true, if_false]
      cases hD : y.kind.isDirLike with
      | true =>
        simp only [hD, if_true]
        have hx : x.mode = 0o755 := by
          rw [hm, defaultTarget_mode]
          simp [hL, hD]
        exact hx.symm
      | false =>
        simp only [hD, Bool.false_eq_true, if_false]
        have hx : x.mode = if y.mode &&& 0o111 ≠ 0 then 0o770 else 0o660 := by
          rw [hm, defaultTarget_mode]
          simp [hL, hD]
        by_cases hE : y.mode &&& 0o111 ≠ 0
        · rw [if_pos hE] at hx
          rw [hx]
          decide
        · rw [if_neg hE] at hx
          rw [hx]
          decide
  show (_, _, _, _, _, _) = (_, _, _, _, _, _)
  rw [defaultTarget_path, defaultTarget_kind, defaultTarget_acl, defaultTarget_uid,
    defaultTarget_gid, defaultTarget_mode, hmode, hu, hg]

theorem option_map_const_of_isSome {α β : Type} {x y : Option α} (c : β)
    (h : x.isSome = y.isSome) : x.map (fun _ => c) = y.map (fun _ => c) := by
  cases x <;> cases y <;> simp_all

theorem coreMap_of_projM {s s' : FS} {q : String}
    (h : (findEntry s q).map projM = (findEntry s' q).map projM) :
    (findEntry s q).map projCore = (findEntry s' q).map projCore := by
  cases hx : findEntry s q <;> cases hy : findEntry s' q <;> rw [hx, hy] at h <;>
    simp_all [projM, projCore, Prod.mk.injEq]

theorem aclMap_of_projM {s s' : FS} {q : String}
    (h : (findEntry s q).map projM = (findEntry s' q).map projM) :
    (findEntry s q).map FEntry.acl = (findEntry s' q).map FEntry.acl := by
  cases hx : findEntry s q <;> cases hy : findEntry s' q <;> rw [hx, hy] at h <;>
    simp_all [projM, Prod.mk.injEq]

theorem aclMap_of_projAC {s s' : FS} {q : String}
    (h : (findEntry s q).map projAC = (findEntry s' q).map projAC) :
    (findEntry s q).map FEntry.acl = (findEntry s' q).map FEntry.acl := by
  cases hx : findEntry s q <;> cases hy : findEntry s' q <;> rw [hx, hy] at h <;>
    simp_all [projAC, Prod.mk.injEq]

theorem contentOf_of_projNA {s s' : FS} {q : String}
    (h : (findEntry s q).map projNA = (findEntry s' q).map projNA) :
    contentOf s q = contentOf s' q := by
  rw [contentOf, contentOf]
  cases hx : findEntry s q <;> cases hy : findEntry s' q <;> rw [hx, hy] at h <;>
    simp_all [projNA, Prod.mk.injEq]

theorem contentOf_of_projAC {s s' : FS} {q : String}
    (h : (findEntry s q).map projAC = (findEntry s' q).map projAC) :
    contentOf s q = contentOf s' q := by
  rw [contentOf, contentOf]
  cases hx : findEntry s q <;> cases hy : findEntry s' q <;> rw [hx, hy] at h <;>
    simp_all [projAC, Prod.mk.injEq]

theorem isSomeEq_of_projM {s s' : FS} {q : String}
    (h : (findEntry s q).map projM = (findEntry s' q).map projM) :
    (findEntry s q).isSome = (findEntry s' q).isSome := by
  cases hx : findEntry s q <;> cases hy : findEntry s' q <;> rw [hx, hy] at h <;> simp_all

theorem projM_of_core_acl {s s' : FS} {q : String}
    (h1 : (findEntry s q).map projCore = (findEntry s' q).map projCore)
    (h2 : (findEntry s q).map FEntry.acl = (findEntry s' q).map FEntry.acl) :
    (findEntry s q).map projM = (findEntry s' q).map projM := by
  cases hx : findEntry s q <;> cases hy : findEntry s' q <;>
    rw [hx, hy] at h1 h2 <;> simp_all [projM, projCore, Prod.mk.injEq]

/-! ## Helper lemmas: second-run analysis -/

theorem set_acl_attributes_fst_eq (fs : FS) (d : String) :
    (set_acl_attributes fs d).1 = stage3 fs d := rfl

theorem getLast?_cons_of_ne_nil {α : Type} (a : α) {l : List α} (h : l ≠ []) :
    (a :: l).getLast? = l.getLast? := by
  cases l with
  | nil => exact absurd rfl h
  | cons b m => exact List.getLast?_cons_cons

theorem getLast?_mem {α : Type} {l : List α} {a : α} (h : l.getLast? = some a) :
    a ∈ l := by
  have hne : l ≠ [] := by
    intro hnil
    subst hnil
    simp at h
  have hg := List.getLast?_eq_getLast l hne
  rw [hg] at h
  injection h with h
  rw [← h]
  exact List.getLast_mem _

theorem contentOf_congr_findEntry {s s' : FS} {q : String}
    (h : findEntry s q = findEntry s' q) : contentOf s q = contentOf s' q := by
  rw [contentOf, contentOf, h]

theorem findEntry_remove_links_ne (fs : FS) (b q : String)
    (h : q ≠ pjoin b ".tcattr") :
    findEntry (remove_links_from_tcattr fs b).1 q = findEntry fs q := by
  unfold remove_links_from_tcattr
  dsimp only
  exact findEntry_setContentFS_ne _ _ _ _ h

theorem existsFS_of_entry {fs : FS} {q : String} (h : ∃ e ∈ fs, e.path = q) :
    existsFS fs q = true := by
  obtain ⟨e', hfe, _⟩ := findEntry_of_entry h
  rw [existsFS, hfe]
  rfl

theorem remove_links_content_normCS (fs : FS) (b : String)
    (hex : existsFS fs (pjoin b ".tcattr") = true) :
    contentOf (remove_links_from_tcattr fs b).1 (pjoin b ".tcattr") =
      normCS (shapeOf fs) b (contentOf fs (pjoin b ".tcattr")) := by
  obtain ⟨e, hfe, _⟩ := findEntry_of_entry (exists_entry_of_existsFS hex)
  rw [remove_links_content_some fs b e hfe]
  rfl

theorem isSomeEq_of_map {α β : Type} (π : α → β) {x y : Option α}
    (h : x.map π = y.map π) : x.isSome = y.isSome := by
  cases x <;> cases y <;> simp_all

theorem coreMap_of_projNA {s s' : FS} {q : String}
    (h : (findEntry s q).map projNA = (findEntry s' q).map projNA) :
    (findEntry s q).map projCore = (findEntry s' q).map projCore := by
  cases hx : findEntry s q <;> cases hy : findEntry s' q <;> rw [hx, hy] at h <;>
    simp_all [projNA, projCore, Prod.mk.injEq]

theorem sidecar_pass_frame (w : List WalkTriple) (fs : FS)
    (recs : List (String × String)) (q : String)
    (hq : ∀ t ∈ w, ".tcattr" ∈ t.2.2 → q ≠ pjoin t.1 ".tcattr") :
    findEntry (sidecar_pass fs recs w).1 q = findEntry fs q := by
  induction w generalizing fs recs with
  | nil => rfl
  | cons t ts ih =>
    unfold sidecar_pass
    split
    · dsimp only
      rename_i hside
      rw [ih _ _ (fun t' ht' hs => hq t' (List.mem_cons_of_mem _ ht') hs)]
      exact findEntry_remove_links_ne _ _ _ (hq t (List.mem_cons_self _ _) hside)
    · exact ih _ _ (fun t' ht' hs => hq t' (List.mem_cons_of_mem _ ht') hs)

theorem sidecar_pass_content (w : List WalkTriple) (fs : FS)
    (recs : List (String × String)) (b : String)
    (hwb : ((w.filter (fun t => decide (".tcattr" ∈ t.2.2))).map
      (fun t => t.1)).Nodup)
    (hex : ∀ t ∈ w, ".tcattr" ∈ t.2.2 → existsFS fs (pjoin t.1 ".tcattr") = true)
    (hb : ∃ t ∈ w, ".tcattr" ∈ t.2.2 ∧ t.1 = b) :
    contentOf (sidecar_pass fs recs w).1 (pjoin b ".tcattr") =
      normCS (shapeOf fs) b (contentOf fs (pjoin b ".tcattr")) := by
  induction w generalizing fs recs with
  | nil =>
    obtain ⟨t, ht, _⟩ := hb
    cases ht
  | cons t ts ih =>
    unfold sidecar_pass
    split
    · dsimp only
      rename_i hside
      rw [List.filter_cons_of_pos (by simpa using hside), List.map_cons,
        List.nodup_cons] at hwb
      by_cases hbt : t.1 = b
      · subst hbt
        have hnot : ∀ t' ∈ ts, ".tcattr" ∈ t'.2.2 →
            pjoin t.1 ".tcattr" ≠ pjoin t'.1 ".tcattr" := by
          intro t' ht' hs hc
          exact hwb.1 (List.mem_map.mpr ⟨t',
            List.mem_filter.mpr ⟨ht', by simpa using hs⟩,
            (pjoin_tcattr_inj hc).symm⟩)
        rw [contentOf_congr_findEntry (sidecar_pass_frame ts _ _ _ hnot)]
        exact remove_links_content_normCS fs t.1 (hex t (List.mem_cons_self _ _) hside)
      · obtain ⟨t', ht', hs', hb'⟩ := hb
        have htl : t' ∈ ts := by
          rcases List.mem_cons.mp ht' with rfl | htl
          · exact absurd hb' hbt
          · exact htl
        have hexr : ∀ t'' ∈ ts, ".tcattr" ∈ t''.2.2 →
            existsFS (remove_links_from_tcattr fs t.1).1 (pjoin t''.1 ".tcattr") = true := by
          intro t'' ht'' hs''
          rw [existsFS_congr (shapeOf_remove_links fs t.1)]
          exact hex t'' (List.mem_cons_of_mem _ ht'') hs''
        rw [ih _ _ hwb.2 hexr ⟨t', htl, hs', hb'⟩, shapeOf_remove_links,
          contentOf_congr_findEntry (findEntry_remove_links_ne fs t.1 _
            (fun hc => hbt (pjoin_tcattr_inj hc).symm))]
    · rename_i hside
      rw [List.filter_cons_of_neg (by simpa using hside)] at hwb
      obtain ⟨t', ht', hs', hb'⟩ := hb
      have htl : t' ∈ ts := by
        rcases List.mem_cons.mp ht' with rfl | htl
        · exact absurd hs' hside
        · exact htl
      exact ih _ _ hwb (fun t'' ht'' hs'' => hex t'' (List.mem_cons_of_mem _ ht'') hs'')
        ⟨t', htl, hs', hb'⟩

theorem lastSidecarBase_cons_pos (t : WalkTriple) (ts : List WalkTriple)
    (h : ".tcattr" ∈ t.2.2) :
    lastSidecarBase (t :: ts) = some ((lastSidecarBase ts).getD t.1) := by
  unfold lastSidecarBase
  rw [List.filter_cons_of_pos (by simpa using h), List.map_cons]
  cases hL : (ts.filter (fun t => decide (".tcattr" ∈ t.2.2))).map (fun t => t.1) with
  | nil => rfl
  | cons x xs =>
    rw [getLast?_cons_of_ne_nil _ (by simp)]
    have hne : x :: xs ≠ [] := by simp
    rw [List.getLast?_eq_getLast _ hne]
    rfl

theorem lastSidecarBase_cons_neg (t : WalkTriple) (ts : List WalkTriple)
    (h : ".tcattr" ∉ t.2.2) :
    lastSidecarBase (t :: ts) = lastSidecarBase ts := by
  unfold lastSidecarBase
  rw [List.filter_cons_of_neg (by simpa using h)]

theorem lastSidecarBase_mem {w : List WalkTriple} {b : String}
    (h : lastSidecarBase w = some b) : ∃ t ∈ w, ".tcattr" ∈ t.2.2 ∧ t.1 = b := by
  unfold lastSidecarBase at h
  obtain ⟨t, htf, hteq⟩ := List.mem_map.mp (getLast?_mem h)
  have hf := List.mem_filter.mp htf
  exact ⟨t, hf.1, of_decide_eq_true hf.2, hteq⟩

theorem sidecar_pass_records_eq (w : List WalkTriple) (fs : FS)
    (recs : List (String × String))
    (hwb : ((w.filter (fun t => decide (".tcattr" ∈ t.2.2))).map
      (fun t => t.1)).Nodup)
    (hex : ∀ t ∈ w, ".tcattr" ∈ t.2.2 → existsFS fs (pjoin t.1 ".tcattr") = true) :
    (sidecar_pass fs recs w).2.2 =
      match lastSidecarBase w with
      | none => recs
      | some b =>
        extract_tcattr_records b (normCS (shapeOf fs) b (contentOf fs (pjoin b ".tcattr"))) := by
  induction w generalizing fs recs with
  | nil => rfl
  | cons t ts ih =>
    unfold sidecar_pass
    split
    · dsimp only
      rename_i hside
      have hwb' := hwb
      rw [List.filter_cons_of_pos (by simpa using hside), List.map_cons,
        List.nodup_cons] at hwb'
      have hexr : ∀ t'' ∈ ts, ".tcattr" ∈ t''.2.2 →
          existsFS (remove_links_from_tcattr fs t.1).1 (pjoin t''.1 ".tcattr") = true := by
        intro t'' ht'' hs''
        rw [existsFS_congr (shapeOf_remove_links fs t.1)]
        exact hex t'' (List.mem_cons_of_mem _ ht'') hs''
      rw [ih _ _ hwb'.2 hexr, lastSidecarBase_cons_pos t ts hside]
      cases hls : lastSidecarBase ts with
      | none =>
        dsimp only [Option.getD]
        rw [remove_links_content_normCS fs t.1 (hex t (List.mem_cons_self _ _) hside)]
      | some b =>
        dsimp only [Option.getD]
        obtain ⟨t', htl, hs', hb'⟩ := lastSidecarBase_mem hls
        have hbt : t.1 ≠ b := by
          intro hc
          exact hwb'.1 (List.mem_map.mpr ⟨t',
            List.mem_filter.mpr ⟨htl, by simpa using hs'⟩, hb'.trans hc.symm⟩)
        rw [shapeOf_remove_links,
          contentOf_congr_findEntry (findEntry_remove_links_ne fs t.1 _
            (fun hc => hbt (pjoin_tcattr_inj hc).symm))]
    · rename_i hside
      have hwb' := hwb
      rw [List.filter_cons_of_neg (by simpa using hside)] at hwb'
      rw [ih _ _ hwb' (fun t'' ht'' hs'' => hex t'' (List.mem_cons_of_mem _ ht'') hs''),
        lastSidecarBase_cons_neg t ts hside]

theorem normCS_double (s : Shape) (b : String) (c : List String)
    (hkeep : islinkS s (pjoin b "") = false) :
    normCS s b (normCS s b c) = normCS s b c ++ [""] := by
  unfold normCS
  rw [splitSep_flatMap (fun st hst => mem_splitSep_no_sep (List.mem_filter.mp hst).1),
    List.filter_append]
  have hA : (((splitSep c).filter
      (fun st => ¬ islinkS s (pjoin b (stanzaFilename st)))).filter
      (fun st => ¬ islinkS s (pjoin b (stanzaFilename st)))) =
      (splitSep c).filter (fun st => ¬ islinkS s (pjoin b (stanzaFilename st))) :=
    List.filter_eq_self.mpr (fun a ha => (List.mem_filter.mp ha).2)
  have hnil : (([([] : List String)]).filter
      (fun st => ¬ islinkS s (pjoin b (stanzaFilename st)))) = [[]] := by
    simp [List.filter_cons, stanzaFilename_nil, hkeep]
  rw [hA, hnil, List.flatMap_append]
  rfl

theorem lastWrite_append_nil (b q : String) (L : List (List String)) :
    lastWrite b q (L ++ [[]]) = lastWrite b q L := by
  induction L with
  | nil =>
    simp only [List.nil_append, lastWrite]
    rw [if_neg]
    intro hc
    exact absurd hc.1 (by decide)
  | cons st rest ih =>
    rw [List.cons_append]
    simp only [lastWrite]
    rw [ih]

theorem mem_reconcileDefaultPaths_exists {fs : FS} {d q : String}
    (h : q ∈ reconcileDefaultPaths fs d) : existsFS fs q = true := by
  unfold reconcileDefaultPaths at h
  dsimp only at h
  rw [shapeOf_sidecar_pass] at h
  obtain ⟨t, ht, n, hn, rfl, -, -⟩ := mem_default_paths.mp h
  exact existsFS_of_entry (walked_name_entry ht hn)

theorem walk_sidecar_exists (fs : FS) (d : String) :
    ∀ t ∈ walkS (shapeOf fs) d, ".tcattr" ∈ t.2.2 →
      existsFS fs (pjoin t.1 ".tcattr") = true := fun t ht hs =>
  existsFS_of_entry (walked_name_entry ht (List.mem_append.mpr (Or.inr hs)))

theorem contentOf_stage3 (fs : FS) (d q : String) :
    contentOf (stage3 fs d) q = contentOf (stage1 fs d) q := by
  unfold stage3 stage2
  exact (contentOf_of_projAC (findEntry_apply_default_acl_projAC _ _ q)).trans
    (contentOf_of_projNA (findEntry_apply_tcattr_acl_projNA _ _ q))

theorem records_second_run (fs : FS) (d : String) (hts : noTrailingSlash fs)
    (hwb : (((walkS (shapeOf fs) d).filter
      (fun t => decide (".tcattr" ∈ t.2.2))).map (fun t => t.1)).Nodup) :
    reconcileRecords (set_acl_attributes fs d).1 d = reconcileRecords fs d := by
  have hex := walk_sidecar_exists fs d
  have hsh3 : shapeOf (set_acl_attributes fs d).1 = shapeOf fs :=
    shapeOf_set_acl_attributes fs d
  have hex3 : ∀ t ∈ walkS (shapeOf fs) d, ".tcattr" ∈ t.2.2 →
      existsFS (set_acl_attributes fs d).1 (pjoin t.1 ".tcattr") = true := by
    intro t ht hs
    rw [existsFS_congr hsh3]
    exact hex t ht hs
  unfold reconcileRecords
  rw [hsh3]
  rw [sidecar_pass_records_eq _ _ _ hwb hex3, sidecar_pass_records_eq _ _ _ hwb hex]
  cases hls : lastSidecarBase (walkS (shapeOf fs) d) with
  | none => rfl
  | some b =>
    dsimp only
    have hb := lastSidecarBase_mem hls
    have hkeep : islinkS (shapeOf fs) (pjoin b "") = false :=
      islinkFS_trailing_slash hts (getLast?_pjoin_nil b)
    have hcontent : contentOf (set_acl_attributes fs d).1 (pjoin b ".tcattr") =
        normCS (shapeOf fs) b (contentOf fs (pjoin b ".tcattr")) := by
      rw [set_acl_attributes_fst_eq, contentOf_stage3]
      exact sidecar_pass_content _ _ _ _ hwb hex hb
    rw [hsh3, hcontent, normCS_double _ _ _ hkeep, extract_append_sep]

theorem findEntry_isSome_of_shape {s fs : FS} {q : String}
    (h : shapeOf s = shapeOf fs) (hq : existsFS fs q = true) :
    ∃ e, findEntry s q = some e := by
  have hx : existsFS s q = true := by
    rw [existsFS_congr h]
    exact hq
  rw [existsFS] at hx
  exact Option.isSome_iff_exists.mp hx

theorem projM_second_run (fs : FS) (d : String) (hts : noTrailingSlash fs)
    (hwb : (((walkS (shapeOf fs) d).filter
      (fun t => decide (".tcattr" ∈ t.2.2))).map (fun t => t.1)).Nodup)
    (hnd : (reconcileDefaultPaths fs d).Nodup) (q : String) :
    (findEntry (set_acl_attributes (set_acl_attributes fs d).1 d).1 q).map projM =
      (findEntry (set_acl_attributes fs d).1 q).map projM := by
  have hex := walk_sidecar_exists fs d
  have hsh3 : shapeOf (set_acl_attributes fs d).1 = shapeOf fs :=
    shapeOf_set_acl_attributes fs d
  have hex3 : ∀ t ∈ walkS (shapeOf fs) d, ".tcattr" ∈ t.2.2 →
      existsFS (set_acl_attributes fs d).1 (pjoin t.1 ".tcattr") = true := by
    intro t ht hs
    rw [existsFS_congr hsh3]
    exact hex t ht hs
  have hRR' : reconcileRecords (set_acl_attributes fs d).1 d = reconcileRecords fs d :=
    records_second_run fs d hts hwb
  have hDD' : reconcileDefaultPaths (set_acl_attributes fs d).1 d =
      reconcileDefaultPaths fs d := by
    have hR' : (sidecar_pass (set_acl_attributes fs d).1 []
        (walkS (shapeOf fs) d)).2.2 =
        (sidecar_pass fs [] (walkS (shapeOf fs) d)).2.2 := by
      have h := records_second_run fs d hts hwb
      unfold reconcileRecords at h
      rwa [hsh3] at h
    unfold reconcileDefaultPaths
    dsimp only
    simp only [shapeOf_sidecar_pass, hsh3, hR']
  have hacl1p3 : (findEntry (sidecar_pass (set_acl_attributes fs d).1 []
        (walkS (shapeOf fs) d)).1 q).map FEntry.acl =
      (findEntry (set_acl_attributes fs d).1 q).map FEntry.acl :=
    aclMap_of_projM (findEntry_sidecar_pass_projM _ _ _ q)
  have hacl32 : (findEntry (set_acl_attributes fs d).1 q).map FEntry.acl =
      (findEntry (stage2 fs d) q).map FEntry.acl := by
    rw [set_acl_attributes_fst_eq fs d]
    exact aclMap_of_projAC (findEntry_apply_default_acl_projAC _ _ q)
  have hacl22 : (findEntry (apply_tcattr_acl (sidecar_pass (set_acl_attributes fs d).1 []
        (walkS (shapeOf fs) d)).1 (reconcileRecords fs d)).1 q).map FEntry.acl =
      (findEntry (stage2 fs d) q).map FEntry.acl := by
    by_cases hRnil : reconcileRecords fs d = []
    · rw [hRnil, apply_tcattr_acl_nil, hacl1p3, hacl32]
    · have hrec : reconcileRecords fs d =
          match lastSidecarBase (walkS (shapeOf fs) d) with
          | none => ([] : List (String × String))
          | some b => extract_tcattr_records b
              (normCS (shapeOf fs) b (contentOf fs (pjoin b ".tcattr"))) :=
        sidecar_pass_records_eq _ _ _ hwb hex
      cases hls : lastSidecarBase (walkS (shapeOf fs) d) with
      | none =>
        rw [hls] at hrec
        dsimp only at hrec
        exact absurd hrec hRnil
      | some b =>
        rw [hls] at hrec
        dsimp only at hrec
        have hfst : ∀ r ∈ reconcileRecords fs d, r.1 = b := by
          intro r hr
          rw [hrec] at hr
          exact extract_records_fst hr
        have hb := lastSidecarBase_mem hls
        have hkeep : islinkS (shapeOf fs) (pjoin b "") = false :=
          islinkFS_trailing_slash hts (getLast?_pjoin_nil b)
        have hc1 : contentOf (stage1 fs d) (pjoin b ".tcattr") =
            normCS (shapeOf fs) b (contentOf fs (pjoin b ".tcattr")) := by
          unfold stage1
          exact sidecar_pass_content _ _ _ _ hwb hex hb
        have hc1p : contentOf (sidecar_pass (set_acl_attributes fs d).1 []
              (walkS (shapeOf fs) d)).1 (pjoin b ".tcattr") =
            normCS (shapeOf fs) b (contentOf fs (pjoin b ".tcattr")) ++ [""] := by
          have h0 : contentOf (sidecar_pass (set_acl_attributes fs d).1 []
                (walkS (shapeOf fs) d)).1 (pjoin b ".tcattr") =
              normCS (shapeOf (set_acl_attributes fs d).1) b
                (contentOf (set_acl_attributes fs d).1 (pjoin b ".tcattr")) :=
            sidecar_pass_content _ _ _ _ hwb hex3 hb
          rw [h0, hsh3, set_acl_attributes_fst_eq fs d, contentOf_stage3, hc1]
          exact normCS_double _ _ _ hkeep
        have hstage2 : stage2 fs d = restoreStanzas b (stage1 fs d)
            (splitSep (normCS (shapeOf fs) b (contentOf fs (pjoin b ".tcattr")))) := by
          unfold stage2
          rw [apply_tcattr_acl_single hfst hRnil]
          unfold restoreAclFile
          rw [hc1]
        have hsome : (findEntry (sidecar_pass (set_acl_attributes fs d).1 []
              (walkS (shapeOf fs) d)).1 q).isSome =
            (findEntry (stage1 fs d) q).isSome := by
          have h1 := isSomeEq_of_map projM (findEntry_sidecar_pass_projM
            (walkS (shapeOf fs) d) (set_acl_attributes fs d).1 [] q)
          have h2 : (findEntry (set_acl_attributes fs d).1 q).isSome =
              (findEntry (stage2 fs d) q).isSome := by
            rw [set_acl_attributes_fst_eq fs d]
            exact isSomeEq_of_map projAC (findEntry_apply_default_acl_projAC _ _ q)
          have h3 : (findEntry (stage2 fs d) q).isSome =
              (findEntry (stage1 fs d) q).isSome :=
            isSomeEq_of_map projNA (findEntry_apply_tcattr_acl_projNA _ _ q)
          exact (h1.trans h2).trans h3
        rw [apply_tcattr_acl_single hfst hRnil]
        unfold restoreAclFile
        rw [hc1p, splitSep_append_sep, hstage2, restore_acl_spec, restore_acl_spec]
        simp only [lastWrite_append_nil]
        cases hlw : lastWrite b q (splitSep (normCS (shapeOf fs) b
            (contentOf fs (pjoin b ".tcattr")))) with
        | some v =>
          dsimp only
          exact option_map_const_of_isSome (some v) hsome
        | none =>
          dsimp only
          have h2to1 : (findEntry (stage2 fs d) q).map FEntry.acl =
              (findEntry (stage1 fs d) q).map FEntry.acl := by
            rw [hstage2, restore_acl_spec]
            simp only [hlw]
          exact (hacl1p3.trans hacl32).trans h2to1
  have hcore22 : (findEntry (apply_tcattr_acl (sidecar_pass (set_acl_attributes fs d).1 []
        (walkS (shapeOf fs) d)).1 (reconcileRecords fs d)).1 q).map projCore =
      (findEntry (set_acl_attributes fs d).1 q).map projCore :=
    (coreMap_of_projNA (findEntry_apply_tcattr_acl_projNA _ _ q)).trans
      (coreMap_of_projM (findEntry_sidecar_pass_projM _ _ _ q))
  have haclA : (findEntry (apply_tcattr_acl (sidecar_pass (set_acl_attributes fs d).1 []
        (walkS (shapeOf fs) d)).1 (reconcileRecords fs d)).1 q).map FEntry.acl =
      (findEntry (set_acl_attributes fs d).1 q).map FEntry.acl := by
    rw [hacl22, set_acl_attributes_fst_eq fs d]
    exact (aclMap_of_projAC (findEntry_apply_default_acl_projAC _ _ q)).symm
  have hA : (findEntry (apply_tcattr_acl (sidecar_pass (set_acl_attributes fs d).1 []
        (walkS (shapeOf fs) d)).1 (reconcileRecords fs d)).1 q).map projM =
      (findEntry (set_acl_attributes fs d).1 q).map projM :=
    projM_of_core_acl hcore22 haclA
  rw [set_acl_attributes_fst_eq (set_acl_attributes fs d).1 d]
  unfold stage3 stage2 stage1
  rw [hRR', hDD', hsh3]
  by_cases hqD : q ∈ reconcileDefaultPaths fs d
  · have hqfs : existsFS fs q = true := mem_reconcileDefaultPaths_exists hqD
    have hsh2p : shapeOf (apply_tcattr_acl (sidecar_pass (set_acl_attributes fs d).1 []
        (walkS (shapeOf fs) d)).1 (reconcileRecords fs d)).1 = shapeOf fs := by
      rw [shapeOf_apply_tcattr_acl, shapeOf_sidecar_pass, hsh3]
    have hsh2 : shapeOf (stage2 fs d) = shapeOf fs := by
      unfold stage2 stage1
      rw [shapeOf_apply_tcattr_acl, shapeOf_sidecar_pass]
    obtain ⟨e2p, hfe2p⟩ := findEntry_isSome_of_shape hsh2p hqfs
    obtain ⟨e2, hfe2⟩ := findEntry_isSome_of_shape hsh2 hqfs
    have hrun2q := findEntry_apply_default_acl_mem _ _ _ hnd hqD e2p hfe2p
    have hfs3q : findEntry (set_acl_attributes fs d).1 q = some (defaultTarget e2) := by
      rw [set_acl_attributes_fst_eq fs d]
      exact findEntry_apply_default_acl_mem _ _ _ hnd hqD e2 hfe2
    have hMA : projM e2p = projM (defaultTarget e2) := by
      have h := hA
      rw [hfe2p, hfs3q] at h
      simpa using h
    have habs : projM (defaultTarget e2p) = projM e2p := projM_defaultTarget_absorb hMA
    rw [hrun2q, hfs3q]
    simp only [Option.map_some']
    rw [habs, hMA]
  · rw [findEntry_apply_default_acl_not_mem _ _ _ hqD]
    exact hA

/-! ## Claim theorems -/

/-- C1 — code bug.  The spec (and the docstrings of `set_acl_attributes` and
`apply_tcattr_acl`) promise that every file recorded in any `.tcattr` sidecar
of the tree has its ACL restored.  The source instead *reassigns*
`files_to_apply_tcattr_acl` for each sidecar found, so only the last-walked
sidecar survives.  At the failing input `fsC1` the sidecar at `/cs/a` records
`fa`, yet after `set_acl_attributes` the file `fa` has no ACL installed and
carries the default mode `0o660`, while the later-walked sidecar at `/cs/b`
was restored verbatim. -/
theorem c1_only_last_sidecar_restored :
    extract_tcattr_records "/cs/a" (contentOf fsC1 "/cs/a/.tcattr") = [("/cs/a", "fa")] ∧
    reconcileRecords fsC1 "/cs" = [("/cs/b", "fb")] ∧
    findEntry ((set_acl_attributes fsC1 "/cs").1) "/cs/a/fa" =
      some { path := "/cs/a/fa", kind := .file, mode := 0o660, uid := 0, gid := 0,
             acl := none, content := [] } ∧
    (findEntry ((set_acl_attributes fsC1 "/cs").1) "/cs/b/fb").map FEntry.acl =
      some (some ["user::rwx"]) := by
  refine ⟨rfl, rfl, rfl, rfl⟩

/-- C3 — code bug.  For an *absolute* `--changes-directory`, the staging copy
goes to the f-string path `/tmp/changes_dirs//data/cs`, but
`os.path.join("/tmp/changes_dirs", "/data/cs")` discards the first component,
so `set_acl_attributes` runs on the caller-owned original `/data/cs` (whose
file `f` is chown-ed to root and chmod-ed to `0o660`), the staged copy is left
untouched with its original metadata, and the directory handed to the
versioned store is the original `/data/cs`, not the staged copy. -/
theorem c3_absolute_dir_reconciled_in_place :
    ((union_cmd fsC3 "/w" (some ["/data/cs"]) none "/st").2.toOption.map Prod.snd) =
      some ["/data/cs"] ∧
    ((union_cmd fsC3 "/w" (some ["/data/cs"]) none "/st").2.toOption.map
        (fun r => findEntry r.1 "/data/cs/f")) =
      some (some { path := "/data/cs/f", kind := .file, mode := 0o660, uid := 0, gid := 0,
                   acl := none, content := [] }) ∧
    ((union_cmd fsC3 "/w" (some ["/data/cs"]) none "/st").2.toOption.map
        (fun r => findEntry r.1 "/tmp/changes_dirs//data/cs/f")) =
      some (some { path := "/tmp/changes_dirs//data/cs/f", kind := .file, mode := 0o644,
                   uid := 1000, gid := 1000, acl := none, content := [] }) := by
  refine ⟨rfl, rfl, rfl⟩

/-- C2 — counterexample.  With change-set list `["present", "missing"]`, the
union does raise `PathNotExistError` for `missing`, but *not* before staging:
the trace of the failing run already contains the bulk copy of `present` into
the staging area (and its reconciliation), contradicting the
validate-all-inputs-first reading of the claim. -/
theorem c2_counterexample :
    (union_cmd fsC2 "/w" (some ["present", "missing"]) none "/st").2 =
      .error (.pathNotExist "Changes directory \x22missing\x22 does not exist") ∧
    Ev.copyE "present" "/tmp/changes_dirs/present" ∈
      (union_cmd fsC2 "/w" (some ["present", "missing"]) none "/st").1 := by
  refine ⟨rfl, by decide⟩

/-- C4 — counterexample.  A sidecar stanza with no `# file: ` marker is not
detected: reconciliation completes without any error, the stanza contributes
no explicit ACL record (the record list is empty, so no restore is ever
attempted), the file the stanza described silently receives the *default*
policy (mode `0o660`, no ACL), and the malformed stanza is even kept verbatim
in the rewritten sidecar — contradicting the claimed fatal
`MalformedAclSidecar` error. -/
theorem c4_counterexample :
    reconcileRecords fsC4 "/c4" = [] ∧
    findEntry ((set_acl_attributes fsC4 "/c4").1) "/c4/foo" =
      some { path := "/c4/foo", kind := .file, mode := 0o660, uid := 0, gid := 0,
             acl := none, content := [] } ∧
    (set_acl_attributes fsC4 "/c4").2 =
      [.rewrite "/c4", .chown "/c4/foo" 0 0, .chmod "/c4/foo" 0o660] ∧
    contentOf ((set_acl_attributes fsC4 "/c4").1) "/c4/.tcattr" =
      ["foo", "user::rw-", ""] := by
  refine ⟨rfl, rfl, rfl, rfl⟩

/-- C5 — counterexample.  The sidecar file `/c5/.tcattr` itself has no
explicit record, yet reconciliation leaves it completely untouched (owner
still `1000:1000`, mode still `0o644` instead of the table's `0o660`),
because the default-list loop skips every name equal to `.tcattr` — so it is
not true that *every* unrecorded path gets root ownership and a table mode. -/
theorem c5_counterexample :
    reconcileRecords fsC5 "/c5" = [("/c5", "g")] ∧
    findEntry ((set_acl_attributes fsC5 "/c5").1) "/c5/.tcattr" =
      some { path := "/c5/.tcattr", kind := .file, mode := 0o644, uid := 1000, gid := 1000,
             acl := none, content := ["# file: g", "user::rw-", ""] } := by
  refine ⟨rfl, rfl⟩

/-- C6 — counterexample.  There is no tree-wide ownership pass preceding the
ACL restore: in the concrete trace the `setfacl --restore` event (index 1)
precedes the only `chown` (index 2, emitted per-file inside the default
pass), and the recorded file `h` never receives any `chown` at all — so
ownership of every path is *not* applied before the ACL-restore step. -/
theorem c6_counterexample :
    (set_acl_attributes fsC6 "/c6").2 =
      [.rewrite "/c6", .restore "/c6", .chown "/c6/k" 0 0, .chmod "/c6/k" 0o660] ∧
    (∃ i j, i < j ∧
      (set_acl_attributes fsC6 "/c6").2.get? i = some (.restore "/c6") ∧
      (set_acl_attributes fsC6 "/c6").2.get? j = some (.chown "/c6/k" 0 0)) ∧
    (∀ u g, Ev.chown "/c6/h" u g ∉ (set_acl_attributes fsC6 "/c6").2) := by
  have ht : (set_acl_attributes fsC6 "/c6").2 =
      [.rewrite "/c6", .restore "/c6", .chown "/c6/k" 0 0, .chmod "/c6/k" 0o660] := rfl
  refine ⟨ht, ⟨1, 2, by omega, by rw [ht]; rfl, by rw [ht]; rfl⟩, ?_⟩
  intro u g hmem
  rw [ht] at hmem
  simp only [List.mem_cons, List.not_mem_nil, or_false] at hmem
  rcases hmem with h | h | h | h <;> simp_all

/-- C8 — counterexample.  The walked path `/c8/.tcattr` belongs to *neither*
treatment class: it is not among the explicit record paths and the
default-list loop skips every name equal to `.tcattr`, so the claimed
"exactly one class, never neither" partition fails on it. -/
theorem c8_counterexample :
    "/c8/.tcattr" ∈ walkedPathsOf fsC8 "/c8" ∧
    "/c8/.tcattr" ∉ (reconcileRecords fsC8 "/c8").map (fun f => pjoin f.1 f.2) ∧
    "/c8/.tcattr" ∉ reconcileDefaultPaths fsC8 "/c8" := by
  refine ⟨by decide, by decide, by decide⟩

/-- C6 — amended.  What the code actually guarantees about ordering: the
trace of `set_acl_attributes` decomposes into three consecutive phases —
sidecar rewrites, then `setfacl --restore` calls, then the default pass's
per-file `chown`/`chmod` events.  In particular every ACL restore *precedes*
every ownership change (the opposite of the claimed tree-wide
ownership-first pass), and ownership is applied per path, interleaved with
that path's mode change, only inside the default pass. -/
theorem c6_amended (fs : FS) (d : String) :
    ∃ l1 l2 l3, (set_acl_attributes fs d).2 = l1 ++ l2 ++ l3 ∧
      (∀ ev ∈ l1, ∃ b, ev = Ev.rewrite b) ∧
      (∀ ev ∈ l2, ∃ b, ev = Ev.restore b) ∧
      (∀ ev ∈ l3, ∃ p, (∃ u g, ev = Ev.chown p u g) ∨ ∃ m, ev = Ev.chmod p m) := by
  unfold set_acl_attributes
  dsimp only
  refine ⟨_, _, _, rfl, ?_, ?_, ?_⟩
  · intro ev hev
    obtain ⟨t, _, h⟩ := sidecar_pass_events hev
    exact ⟨t.1, h⟩
  · intro ev hev
    obtain ⟨b, _, h⟩ := apply_tcattr_acl_events hev
    exact ⟨b, h⟩
  · intro ev hev
    obtain ⟨p, _, h⟩ := apply_default_acl_events hev
    exact ⟨p, h⟩

/-- C4 — amended.  A sidecar none of whose lines carries the `# file: `
marker is not a parse error: the record-collection comprehension simply
returns the empty list (so no ACL is ever restored from it and every path of
the change-set falls to the default policy); nothing like a
`MalformedAclSidecar` failure exists in the code. -/
theorem c4_amended (fs : FS) (b : String)
    (h : ∀ line ∈ contentOf fs (pjoin b ".tcattr"), hasMarker line = false) :
    extract_tcattr_records b
      (contentOf (remove_links_from_tcattr fs b).1 (pjoin b ".tcattr")) = [] := by
  rcases hfe : findEntry fs (pjoin b ".tcattr") with _ | e
  · have hnone : contentOf (remove_links_from_tcattr fs b).1 (pjoin b ".tcattr") = [] := by
      unfold remove_links_from_tcattr
      dsimp only
      rw [contentOf, findEntry_setContentFS_self, hfe]
      rfl
    rw [hnone]
    rfl
  have hcontent : contentOf (remove_links_from_tcattr fs b).1 (pjoin b ".tcattr") =
      ((splitSep (contentOf fs (pjoin b ".tcattr"))).filter
        (fun s => ¬ islinkFS fs (pjoin b (stanzaFilename s)))).flatMap
        (fun s => s ++ [""]) := by
    unfold remove_links_from_tcattr
    dsimp only
    rw [contentOf, findEntry_setContentFS_self, hfe]
    rfl
  rw [hcontent, extract_tcattr_records]
  have hfilter : (((splitSep (contentOf fs (pjoin b ".tcattr"))).filter
      (fun s => ¬ islinkFS fs (pjoin b (stanzaFilename s)))).flatMap
      (fun s => s ++ [""])).filter (fun line => hasMarker line) = [] := by
    rw [List.filter_eq_nil_iff]
    intro line hline
    rcases mem_flatMap_chunks hline with rfl | ⟨s, hs, hmem⟩
    · decide
    · have hsl : s ∈ splitSep (contentOf fs (pjoin b ".tcattr")) :=
        (List.mem_filter.mp hs).1
      have hmem' : line ∈ contentOf fs (pjoin b ".tcattr") :=
        mem_of_mem_splitSep hsl hmem
      simp [h line hmem']
  rw [hfilter, List.map_nil]

/-- C4 amended — witness: a two-line sidecar with no marker yields no records. -/
theorem c4_amended_witness :
    (∀ line ∈ contentOf fsC4 "/c4/.tcattr", hasMarker line = false) ∧
    extract_tcattr_records "/c4"
      (contentOf (remove_links_from_tcattr fsC4 "/c4").1 "/c4/.tcattr") = [] :=
  ⟨by decide, c4_amended fsC4 "/c4" (by decide)⟩

/-- C8 — amended.  The two-class partition is total and exclusive only for
walked paths whose name is not `.tcattr`: such a path is in the default list
exactly when it is not among the record paths.  A path named `.tcattr` is
*never* in the default class (and so, when not explicitly recorded, belongs
to neither class — see the counterexample). -/
theorem c8_amended (fs : FS) (d : String) (t : WalkTriple) (n : String)
    (ht : t ∈ walkS (shapeOf fs) d) (hn : n ∈ t.2.1 ++ t.2.2) :
    (n ≠ ".tcattr" →
      (pjoin t.1 n ∈ reconcileDefaultPaths fs d ↔
        pjoin t.1 n ∉ (reconcileRecords fs d).map (fun f => pjoin f.1 f.2))) ∧
    (n = ".tcattr" → pjoin t.1 n ∉ reconcileDefaultPaths fs d) := by
  have hD : reconcileDefaultPaths fs d =
      default_paths (walkS (shapeOf fs) d) (reconcileRecords fs d) := by
    unfold reconcileDefaultPaths reconcileRecords
    dsimp only
    rw [shapeOf_sidecar_pass]
  constructor
  · intro hne
    constructor
    · intro hmem hc
      rw [hD] at hmem
      obtain ⟨t', ht', n', hn', hq, hne', hcon⟩ := mem_default_paths.mp hmem
      exact (contains_false_iff _ _).mp hcon hc
    · intro hnot
      rw [hD]
      exact mem_default_paths.mpr ⟨t, ht, n, hn, rfl, hne,
        (contains_false_iff _ _).mpr hnot⟩
  · rintro rfl hmem
    rw [hD] at hmem
    obtain ⟨t', ht', n', hn', hq, hne', hcon⟩ := mem_default_paths.mp hmem
    obtain ⟨hne2, hsl2, _⟩ := walked_name_spec (by rw [walkS] at ht'; exact ht') hn'
    have hqa : t.1 ++ "/" ++ ".tcattr" = t'.1 ++ "/" ++ n' := by
      rw [← pjoin_of_name (by decide) (by decide), ← pjoin_of_name hne2 hsl2]
      exact hq
    exact hne' ((pjoin_name_inj (by decide) hsl2 hqa).symm)

/-- C8 amended — witness at the fixture `fsC8`: the name `x` of the walked
root triple is in exactly one class. -/
theorem c8_amended_witness :
    (("/c8", ([] : List String), [".tcattr", "x"]) ∈ walkS (shapeOf fsC8) "/c8" ∧
      "x" ∈ ((("/c8", ([] : List String), [".tcattr", "x"]) : WalkTriple).2.1 ++
        [".tcattr", "x"])) ∧
    (("x" ≠ ".tcattr" →
      (pjoin "/c8" "x" ∈ reconcileDefaultPaths fsC8 "/c8" ↔
        pjoin "/c8" "x" ∉ (reconcileRecords fsC8 "/c8").map (fun f => pjoin f.1 f.2))) ∧
    ("x" = ".tcattr" → pjoin "/c8" "x" ∉ reconcileDefaultPaths fsC8 "/c8")) :=
  ⟨⟨by decide, by decide⟩,
    c8_amended fsC8 "/c8" ("/c8", [], [".tcattr", "x"]) "x" (by decide) (by decide)⟩

/-- C5 — amended.  For every path in the default-policy list (which is every
walked path except those named `.tcattr` and those with an explicit record),
reconciliation sets ownership to `0:0` via the link-aware ownership call and
sets the mode per the fixed classification table — directories `0o755`,
files with an executable bit `0o770`, other regular files `0o660`, symbolic
links ownership only with the mode untouched.  (The amendment excludes the
`.tcattr` sidecar files themselves, which the code skips entirely — see the
counterexample.) -/
theorem c5_amended (fs : FS) (d p : String)
    (hnd : (reconcileDefaultPaths fs d).Nodup)
    (hp : p ∈ reconcileDefaultPaths fs d) :
    ∃ e, findEntry fs p = some e ∧
      ∃ e', findEntry ((set_acl_attributes fs d).1) p = some e' ∧
        e'.uid = 0 ∧ e'.gid = 0 ∧ e'.kind = e.kind ∧
        e'.mode = (if e.kind.isLink then e.mode
          else if e.kind.isDirLike then 0o755
          else if e.mode &&& 0o111 ≠ 0 then 0o770 else 0o660) := by
  have hD : reconcileDefaultPaths fs d =
      default_paths (walkS (shapeOf fs) d)
        (sidecar_pass fs [] (walkS (shapeOf fs) d)).2.2 := by
    unfold reconcileDefaultPaths
    dsimp only
    rw [shapeOf_sidecar_pass]
  obtain ⟨t, ht, n, hn, hq, -, -⟩ := mem_default_paths.mp (hD ▸ hp)
  obtain ⟨e0, he0, hp0⟩ := walked_name_entry ht hn
  obtain ⟨e, hfe, hpe⟩ := findEntry_of_entry ⟨e0, he0, hq ▸ hp0⟩
  refine ⟨e, hfe, ?_⟩
  unfold set_acl_attributes
  dsimp only
  have h1 : (findEntry (sidecar_pass fs []
      (walkS (shapeOf fs) d)).1 p).map projM = (findEntry fs p).map projM :=
    findEntry_sidecar_pass_projM _ _ _ _
  rw [hfe] at h1
  obtain ⟨e1, hfe1, hm1⟩ := Option.map_eq_some'.mp h1
  have h2 : (findEntry (apply_tcattr_acl (sidecar_pass fs []
      (walkS (shapeOf fs) d)).1 (sidecar_pass fs []
      (walkS (shapeOf fs) d)).2.2).1 p).map projNA =
      (findEntry (sidecar_pass fs [] (walkS (shapeOf fs) d)).1 p).map projNA :=
    findEntry_apply_tcattr_acl_projNA _ _ _
  rw [hfe1] at h2
  obtain ⟨e2, hfe2, hm2⟩ := Option.map_eq_some'.mp h2
  have hcore : projCore e2 = projCore e :=
    (projCore_of_projNA hm2).trans (projCore_of_projM hm1)
  obtain ⟨-, hkind, hmode, -, -⟩ := projCore_fields hcore
  have hfinal := findEntry_apply_default_acl_mem
    (default_paths (walkS (shapeOf (sidecar_pass fs [] (walkS (shapeOf fs) d)).1) d)
      (sidecar_pass fs [] (walkS (shapeOf fs) d)).2.2)
    _ p hnd hp e2 hfe2
  refine ⟨defaultTarget e2, hfinal, defaultTarget_uid e2, defaultTarget_gid e2, ?_, ?_⟩
  · rw [defaultTarget_kind, hkind]
  · rw [defaultTarget_mode, hkind, hmode]

/-- C5 amended — witness: the executable file of `fsC5w` ends root-owned with
mode `0o770`. -/
theorem c5_amended_witness :
    ((reconcileDefaultPaths fsC5w "/w5").Nodup ∧
      "/w5/exe" ∈ reconcileDefaultPaths fsC5w "/w5") ∧
    (∃ e, findEntry fsC5w "/w5/exe" = some e ∧
      ∃ e', findEntry ((set_acl_attributes fsC5w "/w5").1) "/w5/exe" = some e' ∧
        e'.uid = 0 ∧ e'.gid = 0 ∧ e'.kind = e.kind ∧
        e'.mode = (if e.kind.isLink then e.mode
          else if e.kind.isDirLike then 0o755
          else if e.mode &&& 0o111 ≠ 0 then 0o770 else 0o660)) :=
  ⟨⟨by decide, by decide⟩, c5_amended fsC5w "/w5" "/w5/exe" (by decide) (by decide)⟩

/-- C7 — confirmed.  (i) Every stanza of the rewritten (normalized) sidecar
names a non-symlink target; (ii) under sidecar well-formedness, every record
extracted from the normalized sidecar names a non-symlink path; (iii) no
`chmod` event of a whole reconciliation run ever targets a symbolic link
(the mode-change branch is unreachable for symlinks — a no-op, not an
error). -/
theorem c7_symlink_safety (fs : FS) (b d : String)
    (hts : noTrailingSlash fs)
    (hwfsc : wfSidecar (contentOf fs (pjoin b ".tcattr"))) :
    (∀ s ∈ splitSep (contentOf (remove_links_from_tcattr fs b).1 (pjoin b ".tcattr")),
        islinkFS fs (pjoin b (stanzaFilename s)) = false) ∧
    (∀ r ∈ extract_tcattr_records b
        (contentOf (remove_links_from_tcattr fs b).1 (pjoin b ".tcattr")),
        islinkFS fs (pjoin r.1 r.2) = false) ∧
    (∀ ev ∈ (set_acl_attributes fs d).2, ∀ p m, ev = Ev.chmod p m →
        islinkFS fs p = false) := by
  have hphantom : islinkFS fs (pjoin b "") = false :=
    islinkFS_trailing_slash hts (getLast?_pjoin_nil b)
  have hkeep : ∀ s ∈ (splitSep (contentOf fs (pjoin b ".tcattr"))).filter
      (fun s => ¬ islinkFS fs (pjoin b (stanzaFilename s))),
      islinkFS fs (pjoin b (stanzaFilename s)) = false := by
    intro s hs
    have := (List.mem_filter.mp hs).2
    simpa using this
  refine ⟨?_, ?_, ?_⟩
  · intro s hs
    rcases hfe : findEntry fs (pjoin b ".tcattr") with _ | e
    · rw [remove_links_content_none fs b hfe, splitSep, List.mem_singleton] at hs
      subst hs
      rw [stanzaFilename_nil]
      exact hphantom
    · rw [remove_links_content_some fs b e hfe] at hs
      rw [splitSep_flatMap (fun c hc => mem_splitSep_no_sep (List.mem_filter.mp hc).1)]
        at hs
      rcases List.mem_append.mp hs with hs | hs
      · exact hkeep s hs
      · rcases List.mem_singleton.mp hs with rfl
        rw [stanzaFilename_nil]
        exact hphantom
  · intro r hr
    rcases hfe : findEntry fs (pjoin b ".tcattr") with _ | e
    · rw [remove_links_content_none fs b hfe] at hr
      cases hr
    · rw [remove_links_content_some fs b e hfe] at hr
      obtain ⟨line, hline, hrdef⟩ := List.mem_map.mp hr
      have hlm := List.mem_filter.mp hline
      rcases mem_flatMap_chunks hlm.1 with rfl | ⟨s, hs, hmem⟩
      · exact absurd hlm.2 (by decide)
      · have hsl : s ∈ splitSep (contentOf fs (pjoin b ".tcattr")) :=
          (List.mem_filter.mp hs).1
        obtain ⟨htail, hhead⟩ := hwfsc s hsl
        cases s with
        | nil => cases hmem
        | cons h0 tl =>
          have hline0 : line = h0 := by
            rcases List.mem_cons.mp hmem with rfl | hmem
            · rfl
            · exact absurd hlm.2 (by rw [htail line hmem]; simp)
          subst hline0
          have hstrip : pyStrip line = line := (hhead (by simpa using hlm.2)).2
          have hr2 : r = (b, pyReplace line "# file: " "") := by
            rw [← hrdef, hstrip]
          rw [hr2]
          have : stanzaFilename (line :: tl) = pyReplace line "# file: " "" := rfl
          rw [← this]
          exact hkeep _ hs
  · intro ev hev p m hevm
    subst hevm
    unfold set_acl_attributes at hev
    dsimp only at hev
    rcases List.mem_append.mp hev with h | h
    · rcases List.mem_append.mp h with h | h
      · obtain ⟨t, _, hrw⟩ := sidecar_pass_events h
        cases hrw
      · obtain ⟨b', _, hrs⟩ := apply_tcattr_acl_events h
        cases hrs
    · have hlink := apply_default_acl_chmod_not_link h
      rwa [islinkFS_congr ((shapeOf_apply_tcattr_acl _ _).trans
        (shapeOf_sidecar_pass _ _ _)) p] at hlink

/-- C7 — witness at `fsC7w` (a sidecar recording a symlink and a file). -/
theorem c7_symlink_safety_witness :
    (noTrailingSlash fsC7w ∧ wfSidecar (contentOf fsC7w (pjoin "/w7" ".tcattr"))) ∧
    ((∀ s ∈ splitSep (contentOf (remove_links_from_tcattr fsC7w "/w7").1
          (pjoin "/w7" ".tcattr")),
        islinkFS fsC7w (pjoin "/w7" (stanzaFilename s)) = false) ∧
    (∀ r ∈ extract_tcattr_records "/w7"
        (contentOf (remove_links_from_tcattr fsC7w "/w7").1 (pjoin "/w7" ".tcattr")),
        islinkFS fsC7w (pjoin r.1 r.2) = false) ∧
    (∀ ev ∈ (set_acl_attributes fsC7w "/w7").2, ∀ p m, ev = Ev.chmod p m →
        islinkFS fsC7w p = false)) :=
  ⟨⟨by decide, by decide⟩, c7_symlink_safety fsC7w "/w7" "/w7" (by decide) (by decide)⟩

theorem autoChangesDirs_none (fs : FS) (st : String) (subs : List String)
    (h : ∀ sub ∈ subs, isdirFS fs (pjoin st sub) = false) :
    autoChangesDirs fs st subs = (fs, [], []) := by
  induction subs with
  | nil => rfl
  | cons s ss ih =>
    unfold autoChangesDirs
    dsimp only
    rw [h s (List.mem_cons_self _ _)]
    simp only [Bool.false_eq_true, if_neg (fun hc : False => hc)]
    exact ih (fun sub hsub => h sub (List.mem_cons_of_mem _ hsub))

/-- C10 — confirmed.  The staging roots are the hard-coded shared paths
`/tmp/changes_dirs` and `/tmp/extra_changes_dirs`, created with a
non-recursive `os.mkdir`: whenever the fixed path already exists (e.g. left
over from a previous invocation), the union fails immediately with a
file-exists error and an empty event trace — no directory is staged. -/
theorem c10_staging_root_collision (fs : FS) (cwd st : String) (l el : List String)
    (e0 : String)
    (hst : existsFS fs (abspath cwd st) = true)
    (h1 : existsFS fs "/tmp/changes_dirs" = true)
    (h2 : existsFS fs "/tmp/extra_changes_dirs" = true)
    (hnone : ∀ sub ∈ ["changes", "splash", "dt", "kernel"],
      isdirFS fs (pjoin (abspath cwd st) sub) = false) :
    union_cmd fs cwd (some l) none st = ([], .error (.fileExists "/tmp/changes_dirs")) ∧
    union_cmd fs cwd none (some (e0 :: el)) st =
      ([], .error (.fileExists "/tmp/extra_changes_dirs")) := by
  have htemp : pjoin "/tmp" "changes_dirs" = "/tmp/changes_dirs" := by decide
  have htempe : pjoin "/tmp" "extra_changes_dirs" = "/tmp/extra_changes_dirs" := by decide
  constructor
  · unfold union_cmd
    dsimp only
    rw [hst, htemp, mkdirFS, h1]
    simp
  · unfold union_cmd
    dsimp only
    rw [hst, autoChangesDirs_none fs (abspath cwd st) _ hnone, htempe, mkdirFS, h2]
    simp [isTruthyList]

/-- C10 — witness at `fsC10w`. -/
theorem c10_staging_root_collision_witness :
    (existsFS fsC10w (abspath "/w" "/st") = true ∧
      existsFS fsC10w "/tmp/changes_dirs" = true ∧
      existsFS fsC10w "/tmp/extra_changes_dirs" = true ∧
      (∀ sub ∈ ["changes", "splash", "dt", "kernel"],
        isdirFS fsC10w (pjoin (abspath "/w" "/st") sub) = false)) ∧
    union_cmd fsC10w "/w" (some ["present"]) none "/st" =
      ([], .error (.fileExists "/tmp/changes_dirs")) ∧
    union_cmd fsC10w "/w" none (some ["present"]) "/st" =
      ([], .error (.fileExists "/tmp/extra_changes_dirs")) :=
  ⟨⟨by decide, by decide, by decide, by decide⟩,
    c10_staging_root_collision fsC10w "/w" "/st" ["present"] [] "present"
      (by decide) (by decide) (by decide) (by decide)⟩

/-- C2 — amended.  With change-set list `[p, m]` where `p` exists and `m`
does not, the union *does* fail with `PathNotExistError` naming `m`, but only
upon reaching `m` in iteration order: by then `p` has already been staged
(its `mkdir` and bulk-copy events precede the error).  The caller-owned
originals are still never written to — every mutating event of the failing
run targets a path under the staging root `/tmp/changes_dirs`. -/
theorem c2_error_after_staging_earlier_dirs (fs : FS) (cwd st p m : String)
    (hst : existsFS fs (abspath cwd st) = true)
    (hT : ∀ e ∈ fs, pyStartsWith e.path "/tmp/changes_dirs" = false)
    (hp : existsFS fs p = true)
    (hrel : isAbsPath p = false)
    (hm : existsFS fs m = false)
    (hmT : pyStartsWith m "/tmp/changes_dirs" = false) :
    (union_cmd fs cwd (some [p, m]) none st).2 =
      .error (.pathNotExist ("Changes directory \x22" ++ m ++ "\x22 does not exist")) ∧
    Ev.copyE p ("/tmp/changes_dirs" ++ "/" ++ p) ∈
      (union_cmd fs cwd (some [p, m]) none st).1 ∧
    (∀ ev ∈ (union_cmd fs cwd (some [p, m]) none st).1, ∀ q, ev.mutTarget = some q →
      pyStartsWith q "/tmp/changes_dirs" = true) := by
  have htemp : pjoin "/tmp" "changes_dirs" = "/tmp/changes_dirs" := by decide
  have hmk : existsFS fs "/tmp/changes_dirs" = false := by
    rw [existsFS_false_iff]
    intro e he hc
    have h := hT e he
    rw [hc, pyStartsWith_refl] at h
    cases h
  have hmkdir : mkdirFS fs "/tmp/changes_dirs" =
      .ok (fs ++ [newDirEntry "/tmp/changes_dirs"]) := by
    rw [mkdirFS, hmk]
    simp
  have hp1 : existsFS (fs ++ [newDirEntry "/tmp/changes_dirs"]) p = true := by
    rw [existsFS_true_iff]
    obtain ⟨e, he, hpe⟩ := existsFS_true_iff.mp hp
    exact ⟨e, List.mem_append_left _ he, hpe⟩
  have htp : existsFS (fs ++ [newDirEntry "/tmp/changes_dirs"])
      ("/tmp/changes_dirs" ++ "/" ++ p) = false := by
    rw [existsFS_false_iff]
    intro e he hc
    rcases List.mem_append.mp he with he | he
    · have h := hT e he
      rw [hc, pyStartsWith_append2] at h
      cases h
    · rcases List.mem_singleton.mp he with rfl
      have hc' : ("/tmp/changes_dirs" : String) = "/tmp/changes_dirs" ++ "/" ++ p := hc
      have hlen : ("/tmp/changes_dirs" : String).data.length =
          ("/tmp/changes_dirs" ++ "/" ++ p).data.length := by rw [← hc']
      rw [String.data_append, String.data_append, List.length_append,
        List.length_append] at hlen
      have h1 : ("/" : String).data.length = 1 := rfl
      rw [h1] at hlen
      omega
  have hmkdirs : makedirsFS (fs ++ [newDirEntry "/tmp/changes_dirs"])
      ("/tmp/changes_dirs" ++ "/" ++ p) =
      .ok ((fs ++ [newDirEntry "/tmp/changes_dirs"]) ++
        [newDirEntry ("/tmp/changes_dirs" ++ "/" ++ p)]) := by
    rw [makedirsFS, htp]
    simp
  have hpj : pjoin "/tmp/changes_dirs" p = "/tmp/changes_dirs" ++ "/" ++ p := by
    rw [pjoin, hrel]
    simp
  have hm3 : existsFS (set_acl_attributes
      (cpDot (fs ++ [newDirEntry "/tmp/changes_dirs"] ++
        [newDirEntry ("/tmp/changes_dirs" ++ "/" ++ p)]) p
        ("/tmp/changes_dirs" ++ "/" ++ p))
      ("/tmp/changes_dirs" ++ "/" ++ p)).1 m = false := by
    rw [existsFS_congr (shapeOf_set_acl_attributes _ _) m, existsFS_false_iff]
    intro e he hc
    rcases mem_cpDot he with he | hpre
    · rcases List.mem_append.mp he with he | he
      · rcases List.mem_append.mp he with he | he
        · exact existsFS_false_iff.mp hm e he hc
        · rcases List.mem_singleton.mp he with rfl
          have hc' : ("/tmp/changes_dirs" : String) = m := hc
          have h := hmT
          rw [← hc', pyStartsWith_refl] at h
          cases h
      · rcases List.mem_singleton.mp he with rfl
        have hc' : ("/tmp/changes_dirs" ++ "/" ++ p : String) = m := hc
        have h := hmT
        rw [← hc', pyStartsWith_append2] at h
        cases h
    · have h : pyStartsWith e.path "/tmp/changes_dirs" = true :=
        pyStartsWith_trans (pyStartsWith_append2 _ _ _) hpre
      rw [hc] at h
      rw [h] at hmT
      cases hmT
  have hchk : check_and_append_dirs (fs ++ [newDirEntry "/tmp/changes_dirs"]) cwd []
      "/tmp/changes_dirs" [p, m] =
      ([Ev.mkdirE ("/tmp/changes_dirs" ++ "/" ++ p),
        Ev.copyE p ("/tmp/changes_dirs" ++ "/" ++ p)] ++
        (set_acl_attributes
          (cpDot (fs ++ [newDirEntry "/tmp/changes_dirs"] ++
            [newDirEntry ("/tmp/changes_dirs" ++ "/" ++ p)]) p
            ("/tmp/changes_dirs" ++ "/" ++ p))
          ("/tmp/changes_dirs" ++ "/" ++ p)).2 ++ [],
        .error (.pathNotExist
          ("Changes directory \x22" ++ m ++ "\x22 does not exist"))) := by
    rw [check_and_append_dirs]
    rw [if_neg (show ¬¬(existsFS (fs ++ [newDirEntry "/tmp/changes_dirs"]) p = true)
      from fun hc => hc hp1)]
    rw [hmkdirs]
    dsimp only
    rw [hpj]
    rw [check_and_append_dirs]
    rw [if_pos (show ¬(existsFS _ m = true) from fun hc => by
      rw [hm3] at hc
      cases hc)]
  have hrun : union_cmd fs cwd (some [p, m]) none st =
      (Ev.mkdirE "/tmp/changes_dirs" ::
        ([Ev.mkdirE ("/tmp/changes_dirs" ++ "/" ++ p),
          Ev.copyE p ("/tmp/changes_dirs" ++ "/" ++ p)] ++
          (set_acl_attributes
            (cpDot (fs ++ [newDirEntry "/tmp/changes_dirs"] ++
              [newDirEntry ("/tmp/changes_dirs" ++ "/" ++ p)]) p
              ("/tmp/changes_dirs" ++ "/" ++ p))
            ("/tmp/changes_dirs" ++ "/" ++ p)).2 ++ []),
        .error (.pathNotExist
          ("Changes directory \x22" ++ m ++ "\x22 does not exist"))) := by
    unfold union_cmd
    dsimp only
    rw [hst]
    rw [if_neg (show ¬¬(true = true) from fun hc => hc rfl)]
    rw [htemp, hmkdir]
    dsimp only
    rw [hchk]
  refine ⟨by rw [hrun], by rw [hrun]; simp, ?_⟩
  intro ev hev q hq
  rw [hrun] at hev
  rcases List.mem_cons.mp hev with rfl | hev
  · rw [Ev.mutTarget, Option.some.injEq] at hq
    rw [← hq]
    exact pyStartsWith_refl _
  rcases List.mem_append.mp hev with hev | hev
  swap
  · cases hev
  rcases List.mem_append.mp hev with hev | hev
  · rcases List.mem_cons.mp hev with rfl | hev
    · rw [Ev.mutTarget, Option.some.injEq] at hq
      rw [← hq]
      exact pyStartsWith_append2 _ _ _
    · rcases List.mem_singleton.mp hev with rfl
      rw [Ev.mutTarget, Option.some.injEq] at hq
      rw [← hq]
      exact pyStartsWith_append2 _ _ _
  · have := set_acl_events_under _ _ ev hev q hq
    exact pyStartsWith_trans (pyStartsWith_append2 _ _ _) this

/-- C2 amended — witness at the fixture `fsC2`. -/
theorem c2_error_after_staging_earlier_dirs_witness :
    (existsFS fsC2 (abspath "/w" "/st") = true ∧
      (∀ e ∈ fsC2, pyStartsWith e.path "/tmp/changes_dirs" = false) ∧
      existsFS fsC2 "present" = true ∧ isAbsPath "present" = false ∧
      existsFS fsC2 "missing" = false ∧
      pyStartsWith "missing" "/tmp/changes_dirs" = false) ∧
    (union_cmd fsC2 "/w" (some ["present", "missing"]) none "/st").2 =
      .error (.pathNotExist
        ("Changes directory \x22" ++ "missing" ++ "\x22 does not exist")) ∧
    Ev.copyE "present" ("/tmp/changes_dirs" ++ "/" ++ "present") ∈
      (union_cmd fsC2 "/w" (some ["present", "missing"]) none "/st").1 ∧
    (∀ ev ∈ (union_cmd fsC2 "/w" (some ["present", "missing"]) none "/st").1,
      ∀ q, ev.mutTarget = some q → pyStartsWith q "/tmp/changes_dirs" = true) :=
  ⟨⟨by decide, by decide, by decide, by decide, by decide, by decide⟩,
    c2_error_after_staging_earlier_dirs fsC2 "/w" "/st" "present" "missing"
      (by decide) (by decide) (by decide) (by decide) (by decide) (by decide)⟩

/-- C9 — confirmed.  Reconciliation is idempotent on metadata: under the
well-formedness conditions that actually hold of a real tree (no stored path
ends in a slash, `os.walk` lists each directory — hence each sidecar base —
once, and the default-policy list has no duplicates), a second run of
`set_acl_attributes` changes no entry's owner, group, mode, kind or ACL
(the `projM` image of every lookup is unchanged), and re-loading the
normalized sidecar yields the same explicit record list as the first
normalized load. -/
theorem c9_reconciliation_idempotent (fs : FS) (d : String)
    (hts : noTrailingSlash fs)
    (hwb : (((walkS (shapeOf fs) d).filter
      (fun t => decide (".tcattr" ∈ t.2.2))).map (fun t => t.1)).Nodup)
    (hnd : (reconcileDefaultPaths fs d).Nodup) :
    (∀ q, (findEntry (set_acl_attributes (set_acl_attributes fs d).1 d).1 q).map projM =
        (findEntry (set_acl_attributes fs d).1 q).map projM) ∧
      reconcileRecords (set_acl_attributes fs d).1 d = reconcileRecords fs d :=
  ⟨fun q => projM_second_run fs d hts hwb hnd q, records_second_run fs d hts hwb⟩

/-- Witness for C9: the hypotheses hold at the concrete change-set `fsC9w`,
and the theorem yields metadata stability at the default-policy path `/cs/g`
together with stability of the record list. -/
theorem c9_reconciliation_idempotent_witness :
    noTrailingSlash fsC9w ∧
      (((walkS (shapeOf fsC9w) "/cs").filter
        (fun t => decide (".tcattr" ∈ t.2.2))).map (fun t => t.1)).Nodup ∧
      (reconcileDefaultPaths fsC9w "/cs").Nodup ∧
      (findEntry (set_acl_attributes (set_acl_attributes fsC9w "/cs").1 "/cs").1
          "/cs/g").map projM =
        (findEntry (set_acl_attributes fsC9w "/cs").1 "/cs/g").map projM ∧
      reconcileRecords (set_acl_attributes fsC9w "/cs").1 "/cs" =
        reconcileRecords fsC9w "/cs" :=
  ⟨by decide, by decide, by decide,
    (c9_reconciliation_idempotent fsC9w "/cs" (by decide) (by decide) (by decide)).1
      "/cs/g",
    (c9_reconciliation_idempotent fsC9w "/cs" (by decide) (by decide) (by decide)).2⟩

end Tcb
